import Mathlib

/-!
# fastpm: the particle-mesh force engine of `fastpm.c`

A shallow embedding of the variable-mesh scheduler, the wavenumber factor
table, the Fourier-space kernels and the power-spectrum estimator of
`src/fastpm.c`, with theorems about them.

Conventions of the embedding.

* `double` and `float` values are idealised as elements of a linearly
  ordered field `K` (evaluated at `ℚ`, and at `ℝ` where `sin`, `sqrt`,
  `exp` or `floor` occur); rounding is not modelled.
* `int` and `ptrdiff_t` values are integers (`Int`), C division is
  `Int.tdiv`; where the 64-bit range of `ptrdiff_t` matters the products
  are wrapped by `ptrdiff_wrap` (`omp_start_ptrdiff`, `omp_end_ptrdiff`).
* A parallel region is run with the blocks of the threads one after
  another (`omp_parallel`). The two kernels write workspace slots of the
  thread's own chunk and read the canvas only. The region of
  `calculate_powerspectrum`, whose threads add to the shared arrays
  `ps->N`, `ps->p`, `ps->k`, is in addition run step by step under a
  schedule (`calculate_powerspectrum_threads`), each `+=` being a load and
  a later store.
* C arrays are total functions of the index; the file-scope table `_vpm`
  is an `Array`, its length is `n_vpm`.
-/

namespace FastPM

/-! ## Variable particle mesh (scheduler) -/

/-- The `VPM` struct: the activation scale factor and the refinement factor
of one mesh configuration (the `PM` member is the transform library's mesh
object and plays no part in the selection). -/
structure VPM (K : Type) where
  a_start : K
  pm_nc_factor : Int
deriving DecidableEq, Repr

/-- The scan of `vpm_find`, entered with loop variable `i`:
`for (; i < n_vpm; i++) if (_vpm[i].a_start > a) break;`
The value is `i` when the loop is left. -/
def vpm_find_loop {K : Type} [LinearOrder K] (_vpm : Array (VPM K)) (a : K) (i : Nat) : Nat :=
  if h : i < _vpm.size then
    if (_vpm[i]).a_start > a then i else vpm_find_loop _vpm a (i + 1)
  else i
termination_by _vpm.size - i

/-- The index `i - 1` that `vpm_find` reads `_vpm` at, as a C `int`. -/
def vpm_find_index {K : Type} [LinearOrder K] (_vpm : Array (VPM K)) (a : K) : Int :=
  (vpm_find_loop _vpm a 0 : Int) - 1

/-- The function `vpm_find`: `return _vpm[i-1]`. A read outside the table
(undefined behaviour in C) is `none`. -/
def vpm_find {K : Type} [LinearOrder K] (_vpm : Array (VPM K)) (a : K) : Option (VPM K) :=
  if 0 ≤ vpm_find_index _vpm a then _vpm[(vpm_find_index _vpm a).toNat]? else none

/-- The table is strictly increasing in `a_start`. -/
def StrictlyIncreasing {K : Type} [LinearOrder K] (_vpm : Array (VPM K)) : Prop :=
  ∀ i j (hi : i < _vpm.size) (hj : j < _vpm.size), i < j → (_vpm[i]).a_start < (_vpm[j]).a_start

/-- The three-entry table of the spec's example, activation scale factors
`0.0, 0.1, 0.5`. -/
def vpmExample : Array (VPM ℚ) := #[⟨0, 1⟩, ⟨1 / 10, 2⟩, ⟨1 / 2, 3⟩]

/-! ## The force-solve pipeline `do_pm`: the per-axis loop -/

/-- Modelled from the spec: the attribute masks `PACK_POS`, `PACK_ACC_X`,
`PACK_ACC_Y`, `PACK_ACC_Z` are macros of `pmpfft.h`, which is not among the
sources; they are kept as names (the particle store keys ghost accumulation
and ghost reduction by such a mask, one acceleration component at a time
for the force readout). -/
inductive PackAttr where
  | PACK_POS
  | PACK_ACC_X
  | PACK_ACC_Y
  | PACK_ACC_Z
deriving DecidableEq, Repr

/-- The table `int ACC[] = {PACK_ACC_X, PACK_ACC_Y, PACK_ACC_Y};` of `do_pm`. -/
def ACC : Fin 3 → PackAttr
  | 0 => PackAttr.PACK_ACC_X
  | 1 => PackAttr.PACK_ACC_Y
  | 2 => PackAttr.PACK_ACC_Y

/-- The calls that one pass of the per-axis loop of `do_pm` makes, in order. -/
inductive PMCall where
  | apply_force_kernel (d : Fin 3)
  | pm_c2r
  | readout (d : Fin 3)
  | pm_reduce_ghosts (attributes : PackAttr)
deriving DecidableEq, Repr

/-- The body of `for(d = 0; d < 3; d ++)` in `do_pm`: transfer, inverse
transform, readout into `p->acc[i][d]`, then `pm_reduce_ghosts(&pgd, ACC[d])`. -/
def do_pm_axis (d : Fin 3) : List PMCall :=
  [PMCall.apply_force_kernel d, PMCall.pm_c2r, PMCall.readout d,
   PMCall.pm_reduce_ghosts (ACC d)]

/-- The per-axis loop of `do_pm`, `d = 0, 1, 2`. -/
def do_pm_force_loop : List PMCall :=
  do_pm_axis 0 ++ do_pm_axis 1 ++ do_pm_axis 2

/-- The mask that ghost reduction is keyed by in the pass for axis `d`. -/
def do_pm_reduce_mask (d : Fin 3) : Option PackAttr :=
  (do_pm_axis d).findSome? fun c =>
    match c with
    | PMCall.pm_reduce_ghosts m => some m
    | _ => none

/-- The acceleration component of axis `d`, in the spec's words: `X` for
`d = 0`, `Y` for `d = 1`, `Z` for `d = 2`. -/
def axis_acc_mask : Fin 3 → PackAttr
  | 0 => PackAttr.PACK_ACC_X
  | 1 => PackAttr.PACK_ACC_Y
  | 2 => PackAttr.PACK_ACC_Z

/-! ## Mesh, factor table and the threaded loop -/

/-- Modelled from the spec: the mesh object `PM` is declared in `pmpfft.h`,
which is not among the sources. These are the members that `fastpm.c` reads
or writes (grid sizes, box size, per-axis wavenumber table, start offsets
and element count of the local region `ORegion`, `Volume`, `Norm`, the
source field `canvas` and the destination `workspace` as interleaved
real/imaginary slots), together with the transform library's map from a
linear local offset to a multi-axis index, `pm_unravel_o_index`, and its
increment `pm_inc_o_index`. -/
structure PM (K : Type) where
  Nmesh : Fin 3 → Int
  BoxSize : Fin 3 → K
  MeshtoK : Fin 3 → Int → K
  ORegion_start : Fin 3 → Int
  ORegion_total : Int
  Volume : K
  Norm : K
  canvas : Int → K
  workspace : Int → K
  pm_unravel_o_index : Int → Fin 3 → Int
  pm_inc_o_index : (Fin 3 → Int) → Fin 3 → Int

/-- What a call finds around it: the size of the OpenMP team
(`omp_get_num_threads`), the indeterminate content of each thread's local
`ptrdiff_t i[3]` before `prepare_omp_loop`, and the indeterminate content of
the `extra` member of a freshly `malloc`ed factor table. -/
structure Env (K : Type) where
  num_threads : Nat
  i_stack : Nat → Fin 3 → Int
  heap_extra : Fin 3 → Int → K

/-- The struct `KFactors`. -/
structure KFactors (K : Type) where
  k_finite : K
  kk_finite : K
  kk : K
  cic : K
  extra : K

/-- The function `diff_kernel`: `1 / 6.0 * (8 * sin (w) - sin (2 * w))`. -/
noncomputable def diff_kernel (w : ℝ) : ℝ :=
  1 / 6 * (8 * Real.sin w - Real.sin (2 * w))

/-- The function `sinc_unnormed`. -/
noncomputable def sinc_unnormed (x : ℝ) : ℝ :=
  if x < 1e-5 ∧ x > -1e-5 then
    let x2 := x * x
    1 - x2 / 6 + x2 * x2 / 120
  else
    Real.sin x / x

/-- The table entry `fac[d][ind]` that `create_k_factors` fills in for
`0 ≤ ind < Nmesh[d]`; `extra` is left as allocated. The table is a total
function of `ind`: a read outside the allocated range is not modelled. -/
noncomputable def create_k_factors (env : Env ℝ) (pm : PM ℝ) (d : Fin 3) (ind : Int) :
    KFactors ℝ :=
  let CellSize := pm.BoxSize d / (pm.Nmesh d : ℝ)
  let k := pm.MeshtoK d ind
  let w := k * CellSize
  let ff := sinc_unnormed (0.5 * w)
  let tmp := Real.sin (0.5 * k * CellSize)
  { k_finite := 1 / CellSize * diff_kernel w
    kk_finite := k * k * ff * ff
    kk := k * k
    cic := 1 - 2 / 3 * tmp * tmp
    extra := env.heap_extra d ind }

/-- The first assignment of `prepare_omp_loop`,
`*start = ith * pm->ORegion.total / nth * 2`, over the integers: the value
that the code computes as long as no product leaves the range of
`ptrdiff_t` (see `omp_start_ptrdiff`). -/
def omp_start (total : Int) (nth ith : Nat) : Int :=
  Int.tdiv ((ith : Int) * total) (nth : Int) * 2

/-- The second assignment of `prepare_omp_loop`,
`*end = (ith + 1) * pm->ORegion.total / nth * 2`, over the integers: the
value that the code computes as long as no product leaves the range of
`ptrdiff_t` (see `omp_end_ptrdiff`). -/
def omp_end (total : Int) (nth ith : Nat) : Int :=
  Int.tdiv (((ith : Int) + 1) * total) (nth : Int) * 2

/-- The value that a 64-bit two's complement `ptrdiff_t` holds for the
integer `x`: `x` itself within `[-2^63, 2^63)`, wrapped around modulo `2^64`
beyond. -/
def ptrdiff_wrap (x : Int) : Int :=
  (x + 2 ^ 63) % 2 ^ 64 - 2 ^ 63

/-- The first assignment of `prepare_omp_loop` in machine arithmetic:
`ith * pm->ORegion.total` is a product in `ptrdiff_t`, then divided by
`nth`, then doubled in `ptrdiff_t`. -/
def omp_start_ptrdiff (total : Int) (nth ith : Nat) : Int :=
  ptrdiff_wrap (Int.tdiv (ptrdiff_wrap ((ith : Int) * total)) (nth : Int) * 2)

/-- The second assignment of `prepare_omp_loop` in machine arithmetic. -/
def omp_end_ptrdiff (total : Int) (nth ith : Nat) : Int :=
  ptrdiff_wrap (Int.tdiv (ptrdiff_wrap (((ith : Int) + 1) * total)) (nth : Int) * 2)

/-- The function `prepare_omp_loop` in thread `ith`: the values of `start`,
`end` and `i` on return, and last the offsets with which it has called
`pm_unravel_o_index`. The statement
`if(*end > *start) pm_unravel_o_index(pm, *start / 2, i);` makes the call
and sets `i`; otherwise there is no call and `i` keeps what it held. -/
def prepare_omp_loop {K : Type} (pm : PM K) (env : Env K) (ith : Nat) :
    Int × Int × (Fin 3 → Int) × List Int :=
  let start := omp_start pm.ORegion_total env.num_threads ith
  let end_ := omp_end pm.ORegion_total env.num_threads ith
  (start, end_,
    if end_ > start then (pm.pm_unravel_o_index (Int.tdiv start 2), [Int.tdiv start 2])
    else (env.i_stack ith, []))

/-- The loop `for(ind = start; ind < end; ind += 2) { body; pm_inc_o_index(pm, i); }`
shared by the three kernels, entered at `ind` with index `i` and state `s`. -/
def omp_for {σ : Type} (inc : (Fin 3 → Int) → Fin 3 → Int)
    (body : Int → (Fin 3 → Int) → σ → σ) (end_ : Int) (ind : Int) (i : Fin 3 → Int) (s : σ) : σ :=
  if ind < end_ then omp_for inc body end_ (ind + 2) (inc i) (body ind i s) else s
termination_by (end_ - ind).toNat
decreasing_by omega

/-- The block under `#pragma omp parallel` as thread `ith` runs it:
`prepare_omp_loop`, then the loop. -/
def omp_thread {K σ : Type} (pm : PM K) (env : Env K)
    (body : Int → (Fin 3 → Int) → σ → σ) (s : σ) (ith : Nat) : σ :=
  omp_for pm.pm_inc_o_index body (prepare_omp_loop pm env ith).2.1
    (prepare_omp_loop pm env ith).1 (prepare_omp_loop pm env ith).2.2.1 s

/-- The parallel region with the threads' blocks taken one after another,
thread `0` first. -/
def omp_parallel {K σ : Type} (pm : PM K) (env : Env K)
    (body : Int → (Fin 3 → Int) → σ → σ) (s : σ) : σ :=
  (List.range env.num_threads).foldl (omp_thread pm env body) s

/-- The index `i` that thread `ith` holds in its pass number `j`: unravelled
once, incremented `j` times. -/
def omp_index {K : Type} (pm : PM K) (env : Env K) (ith j : Nat) : Fin 3 → Int :=
  pm.pm_inc_o_index^[j] (prepare_omp_loop pm env ith).2.2.1

/-! ## The force transfer kernel -/

/-- The workspace together with the record of the divisors of the divisions
carried out so far. -/
structure ForceState (K : Type) where
  workspace : Int → K
  divisors : List K

/-- The sum `kk_finite` of `apply_force_kernel`, accumulated over
`d = 0, 1, 2` from `0`. -/
def kk_finite_total {K : Type} [LinearOrderedField K] (fac : Fin 3 → Int → KFactors K)
    (pm : PM K) (i : Fin 3 → Int) : K :=
  0 + (fac 0 (i 0 + pm.ORegion_start 0)).kk_finite
    + (fac 1 (i 1 + pm.ORegion_start 1)).kk_finite
    + (fac 2 (i 2 + pm.ORegion_start 2)).kk_finite

/-- The loop body of `apply_force_kernel` (without `pm_inc_o_index`). Each
evaluation of `k_finite / kk_finite` records its divisor. -/
def apply_force_kernel_body {K : Type} [LinearOrderedField K] (fac : Fin 3 → Int → KFactors K)
    (pm : PM K) (dir : Fin 3) (ind : Int) (i : Fin 3 → Int) (s : ForceState K) : ForceState K :=
  let k_finite := (fac dir (i dir + pm.ORegion_start dir)).k_finite
  let kk_finite := kk_finite_total fac pm i
  if kk_finite > 0 then
    { workspace :=
        Function.update
          (Function.update s.workspace (ind + 0) (pm.canvas (ind + 1) * (k_finite / kk_finite)))
          (ind + 1) (-pm.canvas (ind + 0) * (k_finite / kk_finite))
      divisors := kk_finite :: kk_finite :: s.divisors }
  else
    { workspace := Function.update (Function.update s.workspace (ind + 0) 0) (ind + 1) 0
      divisors := s.divisors }

/-- The parallel region of `apply_force_kernel` on a given factor table. -/
def apply_force_kernel_on {K : Type} [LinearOrderedField K] (fac : Fin 3 → Int → KFactors K)
    (pm : PM K) (env : Env K) (dir : Fin 3) : ForceState K :=
  omp_parallel pm env (apply_force_kernel_body fac pm dir) ⟨pm.workspace, []⟩

/-- The function `apply_force_kernel`: the table is built by
`create_k_factors`, then the parallel region runs. -/
noncomputable def apply_force_kernel (pm : PM ℝ) (env : Env ℝ) (dir : Fin 3) : ForceState ℝ :=
  apply_force_kernel_on (create_k_factors env pm) pm env dir

/-! ## The smoothing kernel -/

/-- The product `smth` of `smooth_density`, accumulated from `1`. -/
def smth_total {K : Type} [LinearOrderedField K] (fac : Fin 3 → Int → KFactors K)
    (pm : PM K) (i : Fin 3 → Int) : K :=
  1 * (fac 0 (i 0 + pm.ORegion_start 0)).extra
    * (fac 1 (i 1 + pm.ORegion_start 1)).extra
    * (fac 2 (i 2 + pm.ORegion_start 2)).extra

/-- The sum `kk` of `smooth_density` and of `calculate_powerspectrum`,
accumulated from `0`. -/
def kk_total {K : Type} [LinearOrderedField K] (fac : Fin 3 → Int → KFactors K)
    (pm : PM K) (i : Fin 3 → Int) : K :=
  0 + (fac 0 (i 0 + pm.ORegion_start 0)).kk
    + (fac 1 (i 1 + pm.ORegion_start 1)).kk
    + (fac 2 (i 2 + pm.ORegion_start 2)).kk

/-- The loop body of `smooth_density` (without `pm_inc_o_index`). -/
def smooth_density_body {K : Type} [LinearOrderedField K] (fac : Fin 3 → Int → KFactors K)
    (pm : PM K) (ind : Int) (i : Fin 3 → Int) (workspace : Int → K) : Int → K :=
  let smth := smth_total fac pm i
  let kk := kk_total fac pm i
  if kk > 0 then
    Function.update (Function.update workspace (ind + 0) (pm.canvas (ind + 0) * smth))
      (ind + 1) (pm.canvas (ind + 1) * smth)
  else
    Function.update (Function.update workspace (ind + 0) 0) (ind + 1) 0

/-- The parallel region of `smooth_density` on a given factor table. -/
def smooth_density_on {K : Type} [LinearOrderedField K] (fac : Fin 3 → Int → KFactors K)
    (pm : PM K) (env : Env K) : Int → K :=
  omp_parallel pm env (smooth_density_body fac pm) pm.workspace

/-- The first block of `smooth_density`: `fac[d][ind].extra` is set to
`exp(-0.5 * fac[d][ind].kk * r_s * r_s)` for `0 ≤ ind < Nmesh[d]`. -/
noncomputable def smooth_density_factors (pm : PM ℝ) (env : Env ℝ) (r_s : ℝ) (d : Fin 3)
    (ind : Int) : KFactors ℝ :=
  if 0 ≤ ind ∧ ind < pm.Nmesh d then
    { create_k_factors env pm d ind with
      extra := Real.exp (-0.5 * (create_k_factors env pm d ind).kk * r_s * r_s) }
  else create_k_factors env pm d ind

/-- The function `smooth_density`. -/
noncomputable def smooth_density (pm : PM ℝ) (env : Env ℝ) (r_s : ℝ) : Int → ℝ :=
  smooth_density_on (smooth_density_factors pm env r_s) pm env

/-! ## The power-spectrum estimator -/

/-- The pairs `(ind, i)` that the loop
`for(ind = start; ind < end; ind += 2) { ...; pm_inc_o_index(pm, i); }`
passes through, in order. -/
def omp_modes (inc : (Fin 3 → Int) → Fin 3 → Int) (end_ : Int) (ind : Int) (i : Fin 3 → Int) :
    List (Int × (Fin 3 → Int)) :=
  if ind < end_ then (ind, i) :: omp_modes inc end_ (ind + 2) (inc i) else []
termination_by (end_ - ind).toNat
decreasing_by omega

/-- The modes that thread `ith` passes through. -/
def omp_thread_modes {K : Type} (pm : PM K) (env : Env K) (ith : Nat) :
    List (Int × (Fin 3 → Int)) :=
  omp_modes pm.pm_inc_o_index (prepare_omp_loop pm env ith).2.1
    (prepare_omp_loop pm env ith).1 (prepare_omp_loop pm env ith).2.2.1

/-- The modes that the parallel region of one rank passes through: those of
thread `0`, then of thread `1`, and so on. -/
def omp_parallel_modes {K : Type} (pm : PM K) (env : Env K) : List (Int × (Fin 3 → Int)) :=
  (List.range env.num_threads).flatMap (omp_thread_modes pm env)

/-- The three arrays `k`, `p`, `N` of the struct `PowerSpectrum`; their
length `size` is passed alongside. -/
structure PowerSpectrum (K : Type) where
  k : Int → K
  p : Int → K
  N : Int → K

/-- The value `real * real + imag * imag` of a mode of the canvas. -/
def ps_value {K : Type} [LinearOrderedField K] (pm : PM K) (ind : Int) : K :=
  pm.canvas (ind + 0) * pm.canvas (ind + 0) + pm.canvas (ind + 1) * pm.canvas (ind + 1)

/-- The value `k = sqrt(kk)` of a mode. -/
noncomputable def ps_k (fac : Fin 3 → Int → KFactors ℝ) (pm : PM ℝ) (i : Fin 3 → Int) : ℝ :=
  Real.sqrt (kk_total fac pm i)

/-- The bin `floor(k / k0)` of a mode. -/
noncomputable def ps_bin (fac : Fin 3 → Int → KFactors ℝ) (pm : PM ℝ) (k0 : ℝ)
    (i : Fin 3 → Int) : Int :=
  ⌊ps_k fac pm i / k0⌋

/-- The weight `int w = 2; if(i[2] == 0) w = 1;` of a mode. -/
def ps_w (i : Fin 3 → Int) : Int :=
  if i 2 = 0 then 1 else 2

/-- The loop body of `calculate_powerspectrum` (without `pm_inc_o_index`);
the product `cic` it also forms is not used. -/
noncomputable def calculate_powerspectrum_body (fac : Fin 3 → Int → KFactors ℝ) (pm : PM ℝ)
    (k0 : ℝ) (size : Nat) (ind : Int) (i : Fin 3 → Int) (ps : PowerSpectrum ℝ) :
    PowerSpectrum ℝ :=
  let value := ps_value pm ind
  let k := ps_k fac pm i
  let bin := ps_bin fac pm k0 i
  if bin ≥ 0 ∧ bin < (size : Int) then
    let w := ps_w i
    { N := Function.update ps.N bin (ps.N bin + (w : ℝ))
      p := Function.update ps.p bin (ps.p bin + (w : ℝ) * value)
      k := Function.update ps.k bin (ps.k bin + (w : ℝ) * k) }
  else ps

/-- The value `k0 = 2 * M_PI / pm->BoxSize[0]`. -/
noncomputable def ps_k0 (pm : PM ℝ) : ℝ :=
  2 * Real.pi / pm.BoxSize 0

/-- The first part of `calculate_powerspectrum` on one rank: the factor
table, the three `memset`s, `k0`, and the parallel region in the run where
the blocks of the threads follow one another (the only run with one thread;
with more, one schedule among those of `calculate_powerspectrum_threads`). -/
noncomputable def calculate_powerspectrum_local (pm : PM ℝ) (env : Env ℝ) (size : Nat) :
    PowerSpectrum ℝ :=
  omp_parallel pm env
    (calculate_powerspectrum_body (create_k_factors env pm) pm (ps_k0 pm) size)
    ⟨fun _ => 0, fun _ => 0, fun _ => 0⟩

/-- The call `MPI_Allreduce(MPI_IN_PLACE, a, size, MPI_DOUBLE, MPI_SUM, pm->Comm2D)`:
entry by entry, the sum of the arrays that the ranks of the communicator
hold. -/
def MPI_Allreduce_SUM {K : Type} [LinearOrderedField K] (locals : List (Int → K)) : Int → K :=
  fun b => (locals.map fun a => a b).sum

/-- The state of `ps` on every rank after the three `MPI_Allreduce` calls,
when no rank interleaves the blocks of its threads; `comm` lists the mesh
object and surroundings of each rank of `Comm2D`. -/
noncomputable def calculate_powerspectrum_reduced (comm : List (PM ℝ × Env ℝ)) (size : Nat) :
    PowerSpectrum ℝ where
  p := MPI_Allreduce_SUM (comm.map fun r => (calculate_powerspectrum_local r.1 r.2 size).p)
  N := MPI_Allreduce_SUM (comm.map fun r => (calculate_powerspectrum_local r.1 r.2 size).N)
  k := MPI_Allreduce_SUM (comm.map fun r => (calculate_powerspectrum_local r.1 r.2 size).k)

/-- The function `calculate_powerspectrum` as the rank with mesh object `pm`
sees it return when no rank interleaves the blocks of its threads: the
reduced arrays, normalised for `0 ≤ ind < size` by `k[ind] /= N[ind]`,
`p[ind] /= N[ind]` and
`p[ind] *= Volume / (Norm * Norm) * (density_factor * density_factor)`. The
run under other schedules is `calculate_powerspectrum_scheduled`. -/
noncomputable def calculate_powerspectrum (comm : List (PM ℝ × Env ℝ)) (pm : PM ℝ) (size : Nat)
    (density_factor : ℝ) : PowerSpectrum ℝ where
  k := fun ind =>
    if 0 ≤ ind ∧ ind < (size : Int) then
      (calculate_powerspectrum_reduced comm size).k ind
        / (calculate_powerspectrum_reduced comm size).N ind
    else (calculate_powerspectrum_reduced comm size).k ind
  p := fun ind =>
    if 0 ≤ ind ∧ ind < (size : Int) then
      (calculate_powerspectrum_reduced comm size).p ind
        / (calculate_powerspectrum_reduced comm size).N ind
        * (pm.Volume / (pm.Norm * pm.Norm) * (density_factor * density_factor))
    else (calculate_powerspectrum_reduced comm size).p ind
  N := (calculate_powerspectrum_reduced comm size).N

/-- The sum of `f` over the modes of all ranks of `comm` whose bin is `b`. -/
noncomputable def ps_bin_sum (comm : List (PM ℝ × Env ℝ)) (b : Int)
    (f : PM ℝ → Int × (Fin 3 → Int) → ℝ) : ℝ :=
  (comm.map fun r =>
    ((omp_parallel_modes r.1 r.2).map fun m =>
      if ps_bin (create_k_factors r.2 r.1) r.1 (ps_k0 r.1) m.2 = b then f r.1 m else 0).sum).sum

/-- The sum of `w * k` over the modes of all ranks of `comm` whose bin is
`b`, with `k = sqrt(kk)` the wavenumber of the mode. -/
noncomputable def ps_bin_sum_k (comm : List (PM ℝ × Env ℝ)) (b : Int) : ℝ :=
  (comm.map fun r =>
    ((omp_parallel_modes r.1 r.2).map fun m =>
      if ps_bin (create_k_factors r.2 r.1) r.1 (ps_k0 r.1) m.2 = b
        then (ps_w m.2 : ℝ) * ps_k (create_k_factors r.2 r.1) r.1 m.2 else 0).sum).sum

/-- The weight and the wavenumber of every mode of every rank, the weight
replaced by `0` for a mode outside bin `b`. -/
noncomputable def ps_bin_pairs (comm : List (PM ℝ × Env ℝ)) (b : Int) : List (ℝ × ℝ) :=
  comm.flatMap fun r =>
    (omp_parallel_modes r.1 r.2).map fun m =>
      (if ps_bin (create_k_factors r.2 r.1) r.1 (ps_k0 r.1) m.2 = b then (ps_w m.2 : ℝ) else 0,
        ps_k (create_k_factors r.2 r.1) r.1 m.2)

/-! ## The parallel region of the power spectrum, step by step -/

/-- One of the three arrays of the struct `PowerSpectrum`. -/
inductive PSArray where
  | N
  | p
  | k
deriving DecidableEq

/-- The entry `ps->a[b]`. -/
def ps_read {K : Type} (ps : PowerSpectrum K) (a : PSArray) (b : Int) : K :=
  match a with
  | PSArray.N => ps.N b
  | PSArray.p => ps.p b
  | PSArray.k => ps.k b

/-- The arrays after the assignment `ps->a[b] = v`. -/
def ps_write {K : Type} (ps : PowerSpectrum K) (a : PSArray) (b : Int) (v : K) :
    PowerSpectrum K :=
  match a with
  | PSArray.N => { ps with N := Function.update ps.N b v }
  | PSArray.p => { ps with p := Function.update ps.p b v }
  | PSArray.k => { ps with k := Function.update ps.k b v }

/-- One statement `ps->arr[bin] += add` of the loop of
`calculate_powerspectrum`. -/
structure PSUpdate where
  arr : PSArray
  bin : Int
  add : ℝ

/-- The statement `ps->arr[bin] += add` carried out in one piece. -/
def ps_apply (ps : PowerSpectrum ℝ) (u : PSUpdate) : PowerSpectrum ℝ :=
  ps_write ps u.arr u.bin (ps_read ps u.arr u.bin + u.add)

/-- The statements on the shared arrays that one pass of the loop of
`calculate_powerspectrum` carries out, in program order:
`ps->N[bin] += w; ps->p[bin] += w * value; ps->k[bin] += w * k;` inside
`if(bin >= 0 && bin < ps->size)`, none otherwise. -/
noncomputable def calculate_powerspectrum_updates (fac : Fin 3 → Int → KFactors ℝ) (pm : PM ℝ)
    (k0 : ℝ) (size : Nat) (ind : Int) (i : Fin 3 → Int) : List PSUpdate :=
  let value := ps_value pm ind
  let k := ps_k fac pm i
  let bin := ps_bin fac pm k0 i
  if bin ≥ 0 ∧ bin < (size : Int) then
    let w := ps_w i
    [⟨PSArray.N, bin, (w : ℝ)⟩, ⟨PSArray.p, bin, (w : ℝ) * value⟩, ⟨PSArray.k, bin, (w : ℝ) * k⟩]
  else []

/-- The statements on the shared arrays that thread `ith` carries out in its
block of the parallel region of `calculate_powerspectrum`, in program
order. -/
noncomputable def calculate_powerspectrum_program (pm : PM ℝ) (env : Env ℝ) (size : Nat)
    (ith : Nat) : List PSUpdate :=
  (omp_thread_modes pm env ith).flatMap fun m =>
    calculate_powerspectrum_updates (create_k_factors env pm) pm (ps_k0 pm) size m.1 m.2

/-- A thread inside the parallel region: the statements it has still to
carry out and, when it stands between the load and the store of the first
of them, the value it has loaded. -/
structure PSThread where
  todo : List PSUpdate
  loaded : Option ℝ

/-- The parallel region of `calculate_powerspectrum` at some moment: the
shared arrays and the threads. -/
structure PSRegion where
  ps : PowerSpectrum ℝ
  threads : Nat → PSThread

/-- One step of thread `t`. The statement `ps->arr[bin] += add` is not
atomic (the region has no `atomic`, `critical` or `reduction`): the thread
first loads `ps->arr[bin]`, and in a later step stores the loaded value plus
`add`. A thread with nothing left does nothing. -/
def ps_step (s : PSRegion) (t : Nat) : PSRegion :=
  match (s.threads t).todo, (s.threads t).loaded with
  | [], _ => s
  | u :: rest, none =>
    { ps := s.ps
      threads := Function.update s.threads t ⟨u :: rest, some (ps_read s.ps u.arr u.bin)⟩ }
  | u :: rest, some v =>
    { ps := ps_write s.ps u.arr u.bin (v + u.add)
      threads := Function.update s.threads t ⟨rest, none⟩ }

/-- The parallel region of `calculate_powerspectrum` when it is entered: the
arrays zeroed by the three `memset`s, every thread of the team before its
first statement. -/
noncomputable def calculate_powerspectrum_enter (pm : PM ℝ) (env : Env ℝ) (size : Nat) :
    PSRegion where
  ps := ⟨fun _ => 0, fun _ => 0, fun _ => 0⟩
  threads := fun t =>
    if t < env.num_threads then ⟨calculate_powerspectrum_program pm env size t, none⟩
    else ⟨[], none⟩

/-- The parallel region of `calculate_powerspectrum` run under a schedule:
`sched` names, step after step, the thread that moves. -/
noncomputable def calculate_powerspectrum_threads (pm : PM ℝ) (env : Env ℝ) (size : Nat)
    (sched : List Nat) : PSRegion :=
  sched.foldl ps_step (calculate_powerspectrum_enter pm env size)

/-- Every thread has left the parallel region: none has a statement left. -/
def ps_finished (s : PSRegion) : Prop :=
  ∀ t, (s.threads t).todo = []

/-- The schedule that lets thread `0` run its whole block, then thread `1`,
and so on: two steps for each statement. -/
noncomputable def ps_serial_schedule (pm : PM ℝ) (env : Env ℝ) (size : Nat) : List Nat :=
  (List.range env.num_threads).flatMap fun t =>
    List.replicate (2 * (calculate_powerspectrum_program pm env size t).length) t

/-- The part of `calculate_powerspectrum` after the parallel region, from the
arrays `locals` that the ranks of `Comm2D` hold when they leave it: the
three `MPI_Allreduce` calls, then for `0 ≤ ind < size` the normalisation
`k[ind] /= N[ind]`, `p[ind] /= N[ind]` and
`p[ind] *= Volume / (Norm * Norm) * (density_factor * density_factor)`. -/
noncomputable def calculate_powerspectrum_finish (locals : List (PowerSpectrum ℝ)) (pm : PM ℝ)
    (size : Nat) (density_factor : ℝ) : PowerSpectrum ℝ where
  k := fun ind =>
    if 0 ≤ ind ∧ ind < (size : Int) then
      MPI_Allreduce_SUM (locals.map fun l => l.k) ind
        / MPI_Allreduce_SUM (locals.map fun l => l.N) ind
    else MPI_Allreduce_SUM (locals.map fun l => l.k) ind
  p := fun ind =>
    if 0 ≤ ind ∧ ind < (size : Int) then
      MPI_Allreduce_SUM (locals.map fun l => l.p) ind
        / MPI_Allreduce_SUM (locals.map fun l => l.N) ind
        * (pm.Volume / (pm.Norm * pm.Norm) * (density_factor * density_factor))
    else MPI_Allreduce_SUM (locals.map fun l => l.p) ind
  N := MPI_Allreduce_SUM (locals.map fun l => l.N)

/-- The function `calculate_powerspectrum` as the rank with mesh object `pm`
sees it return when the parallel region of each rank of `comm` runs under
the schedule listed with it. -/
noncomputable def calculate_powerspectrum_scheduled (comm : List (PM ℝ × Env ℝ × List Nat))
    (pm : PM ℝ) (size : Nat) (density_factor : ℝ) : PowerSpectrum ℝ :=
  calculate_powerspectrum_finish
    (comm.map fun r => (calculate_powerspectrum_threads r.1 r.2.1 size r.2.2).ps)
    pm size density_factor

/-! ## Locations written by a thread -/

/-- The workspace slots that one pass of the loop of `apply_force_kernel`,
and of `smooth_density`, assigns: `pm->workspace[ind + 0]` and
`pm->workspace[ind + 1]`, in either branch. -/
def workspace_writes (ind : Int) : List Int :=
  [ind + 0, ind + 1]

/-- The entry of `ps->N`, `ps->p` and `ps->k` that one pass of the loop of
`calculate_powerspectrum` updates: `bin`, inside
`if(bin >= 0 && bin < ps->size)`, and none otherwise. -/
noncomputable def ps_writes (fac : Fin 3 → Int → KFactors ℝ) (pm : PM ℝ) (k0 : ℝ) (size : Nat)
    (i : Fin 3 → Int) : List Int :=
  if ps_bin fac pm k0 i ≥ 0 ∧ ps_bin fac pm k0 i < (size : Int) then [ps_bin fac pm k0 i] else []

/-- The locations that thread `ith` writes in its block, pass after pass,
when a pass at `(ind, i)` writes `w ind i`. -/
def omp_thread_writes {K : Type} (pm : PM K) (env : Env K)
    (w : Int → (Fin 3 → Int) → List Int) (ith : Nat) : List Int :=
  (omp_thread_modes pm env ith).flatMap fun m => w m.1 m.2

/-- The accumulator entries that thread `ith` updates in
`calculate_powerspectrum`. -/
noncomputable def ps_thread_writes (pm : PM ℝ) (env : Env ℝ) (size : Nat) (ith : Nat) :
    List Int :=
  omp_thread_writes pm env
    (fun _ i => ps_writes (create_k_factors env pm) pm (ps_k0 pm) size i) ith

/-! ## Sample inputs -/

/-- A one-cell mesh: `Nmesh = 1`, `BoxSize = 1` on every axis, every
wavenumber equal to `k`, a local region of one mode with amplitude
`3 + 4i`, and a zeroed workspace. -/
def pmExample {K : Type} [LinearOrderedField K] (k : K) : PM K where
  Nmesh := fun _ => 1
  BoxSize := fun _ => 1
  MeshtoK := fun _ _ => k
  ORegion_start := fun _ => 0
  ORegion_total := 1
  Volume := 1
  Norm := 1
  canvas := fun x => if x = 0 then 3 else 4
  workspace := fun _ => 0
  pm_unravel_o_index := fun _ _ => 0
  pm_inc_o_index := fun i => i

/-- A team of `nth` threads; the indeterminate contents are zero. -/
def envExample {K : Type} [LinearOrderedField K] (nth : Nat) : Env K where
  num_threads := nth
  i_stack := fun _ _ => 0
  heap_extra := fun _ _ => 0

/-- A factor table with the same entry everywhere: `k_finite = 5`, all
squared wavenumbers `0`, `cic = 1`, `extra = 7`. -/
def facZero {K : Type} [LinearOrderedField K] : Fin 3 → Int → KFactors K :=
  fun _ _ => ⟨5, 0, 0, 1, 7⟩

/-- A local region of five modes on the one-cell mesh. -/
def pmFive : PM ℚ := { pmExample 0 with ORegion_total := 5 }

/-- A rank of a mesh with `Nmesh = 4` and `BoxSize = 2π` on every axis
(wavenumbers `0, 1, -2, -1`, so `k0 = 1`), whose local region is the two
modes of global index `(1, 0, 0)` and `(1, 1, 0)`: the local index runs
along axis `1`. -/
noncomputable def pmPair : PM ℝ where
  Nmesh := fun _ => 4
  BoxSize := fun _ => 2 * Real.pi
  MeshtoK := fun _ ind => if ind = 0 then 0 else if ind = 1 then 1 else if ind = 2 then -2 else -1
  ORegion_start := fun d => if d = 0 then 1 else 0
  ORegion_total := 2
  Volume := (2 * Real.pi) ^ 3
  Norm := 64
  canvas := fun _ => 1
  workspace := fun _ => 0
  pm_unravel_o_index := fun n d => if d = 1 then n else 0
  pm_inc_o_index := fun i d => if d = 1 then i d + 1 else i d

/-- A rank whose local region is empty, `ORegion.total == 0`; its workspace
holds `9` in every slot. -/
def pmEmpty {K : Type} [LinearOrderedField K] : PM K :=
  { pmExample 0 with ORegion_total := 0, workspace := fun _ => 9 }

/-- The rank `pmPair` with the amplitude `3/5 + 4/5 i`, of modulus `1`, at
both modes. -/
noncomputable def pmPairUnit : PM ℝ :=
  { pmPair with canvas := fun x => if x = 0 ∨ x = 2 then 3 / 5 else 4 / 5 }

/-! # Theorems -/

/-! ### Scheduler lemmas -/

theorem vpm_find_loop_le_size {K : Type} [LinearOrder K] (_vpm : Array (VPM K)) (a : K) (i : Nat)
    (hi : i ≤ _vpm.size) : vpm_find_loop _vpm a i ≤ _vpm.size := by
  induction i using vpm_find_loop.induct _vpm a with
  | case1 i h hgt => rw [vpm_find_loop]; simp [h, hgt]; omega
  | case2 i h hgt ih => rw [vpm_find_loop]; simp [h, hgt]; exact ih (by omega)
  | case3 i h => rw [vpm_find_loop]; simp [h]; omega

/-- Every entry the scan stepped over has `a_start ≤ a`. -/
theorem vpm_find_loop_passed {K : Type} [LinearOrder K] (_vpm : Array (VPM K)) (a : K) (i : Nat) :
    ∀ j (hj : j < _vpm.size), i ≤ j → j < vpm_find_loop _vpm a i → (_vpm[j]).a_start ≤ a := by
  induction i using vpm_find_loop.induct _vpm a with
  | case1 i h hgt =>
    intro j hj hij hlt
    rw [vpm_find_loop] at hlt; simp [h, hgt] at hlt; omega
  | case2 i h hgt ih =>
    intro j hj hij hlt
    rw [vpm_find_loop] at hlt; simp only [h, hgt, dite_true, if_false] at hlt
    rcases Nat.eq_or_lt_of_le hij with rfl | hlt2
    · exact not_lt.mp hgt
    · exact ih j hj hlt2 hlt
  | case3 i h =>
    intro j hj hij hlt
    omega

/-- Where the scan stops inside the table, the entry there exceeds `a`. -/
theorem vpm_find_loop_stop {K : Type} [LinearOrder K] (_vpm : Array (VPM K)) (a : K) (i : Nat) :
    ∀ (h : vpm_find_loop _vpm a i < _vpm.size), a < (_vpm[vpm_find_loop _vpm a i]).a_start := by
  induction i using vpm_find_loop.induct _vpm a with
  | case1 i h hgt =>
    intro hs
    have e : vpm_find_loop _vpm a i = i := by rw [vpm_find_loop]; simp [h, hgt]
    simp only [e]; exact hgt
  | case2 i h hgt ih =>
    intro hs
    have e : vpm_find_loop _vpm a i = vpm_find_loop _vpm a (i + 1) := by
      rw [vpm_find_loop]; simp [h, hgt]
    simp only [e] at hs ⊢; exact ih hs
  | case3 i h =>
    intro hs
    have e : vpm_find_loop _vpm a i = i := by rw [vpm_find_loop]; simp [h]
    omega

/-- The scan leaves index `0` exactly when the table is non-empty and its
first entry does not exceed `a`. -/
theorem vpm_find_loop_pos_iff {K : Type} [LinearOrder K] (_vpm : Array (VPM K)) (a : K) :
    0 < vpm_find_loop _vpm a 0 ↔ ∃ h : 0 < _vpm.size, (_vpm[0]).a_start ≤ a := by
  have hle := vpm_find_loop_le_size _vpm a 0 (Nat.zero_le _)
  constructor
  · intro hpos
    have hne : 0 < _vpm.size := by omega
    exact ⟨hne, vpm_find_loop_passed _vpm a 0 0 hne (Nat.le_refl _) hpos⟩
  · rintro ⟨hne, h0⟩
    rcases Nat.eq_zero_or_pos (vpm_find_loop _vpm a 0) with h | h
    · have hlt : vpm_find_loop _vpm a 0 < _vpm.size := by omega
      have hstop := vpm_find_loop_stop _vpm a 0 hlt
      simp only [h] at hstop
      exact absurd h0 (not_le.mpr hstop)
    · exact h

/-! ### Scheduler theorems -/

theorem vpmExample_increasing : StrictlyIncreasing vpmExample := by
  intro i j hi hj hij
  have hi3 : i < 3 := hi
  have hj3 : j < 3 := hj
  interval_cases i <;> interval_cases j <;> first | omega | norm_num [vpmExample]

/-- C1: on a non-empty table with strictly increasing `a_start` and a query
`a` with `a_start[0] ≤ a`, `vpm_find a` returns the entry of the largest
index `i` with `a_start[i] ≤ a`; an entry whose `a_start` equals `a` is the
one selected. -/
theorem vpm_find_selects_last {K : Type} [LinearOrder K] (_vpm : Array (VPM K)) (a : K)
    (hne : 0 < _vpm.size) (hs : StrictlyIncreasing _vpm) (h0 : (_vpm[0]).a_start ≤ a) :
    ∃ (i : Nat) (hi : i < _vpm.size),
      vpm_find_index _vpm a = (i : Int) ∧
      vpm_find _vpm a = some _vpm[i] ∧
      (_vpm[i]).a_start ≤ a ∧
      (∀ j (hj : j < _vpm.size), (_vpm[j]).a_start ≤ a → j ≤ i) ∧
      (∀ j (hj : j < _vpm.size), (_vpm[j]).a_start = a → j = i) := by
  have hle := vpm_find_loop_le_size _vpm a 0 (Nat.zero_le _)
  have hpos : 0 < vpm_find_loop _vpm a 0 := (vpm_find_loop_pos_iff _vpm a).mpr ⟨hne, h0⟩
  have hi : vpm_find_loop _vpm a 0 - 1 < _vpm.size := by omega
  have hidx : vpm_find_index _vpm a = ((vpm_find_loop _vpm a 0 - 1 : Nat) : Int) := by
    unfold vpm_find_index; omega
  have hmax : ∀ j (hj : j < _vpm.size), (_vpm[j]).a_start ≤ a → j ≤ vpm_find_loop _vpm a 0 - 1 := by
    intro j hj hja
    by_contra hcon
    have hsj : vpm_find_loop _vpm a 0 ≤ j := by omega
    have hlt : vpm_find_loop _vpm a 0 < _vpm.size := by omega
    have hstop := vpm_find_loop_stop _vpm a 0 hlt
    rcases Nat.eq_or_lt_of_le hsj with e | l
    · simp only [e] at hstop
      exact absurd hja (not_le.mpr hstop)
    · have := hs _ j hlt hj l
      exact absurd hja (not_le.mpr (lt_trans hstop this))
  have hsel : (_vpm[vpm_find_loop _vpm a 0 - 1]).a_start ≤ a :=
    vpm_find_loop_passed _vpm a 0 _ hi (Nat.zero_le _) (by omega)
  refine ⟨vpm_find_loop _vpm a 0 - 1, hi, hidx, ?_, hsel, hmax, ?_⟩
  · unfold vpm_find
    rw [hidx]
    simp only [Int.ofNat_zero_le, if_true, Int.toNat_ofNat]
    exact getElem?_pos _vpm _ hi
  · intro j hj hja
    have h1 := hmax j hj (le_of_eq hja)
    rcases Nat.eq_or_lt_of_le h1 with e | l
    · exact e
    · have := hs j _ hj hi l
      rw [hja] at this
      exact absurd hsel (not_le.mpr this)

/-- The spec's example for C1: with `a_start = [0.0, 0.1, 0.5]` the queries
`0.05, 0.1, 0.3, 0.99` select entries `0, 1, 1, 2`. -/
theorem vpm_find_selects_last_witness :
    vpm_find vpmExample (1 / 20) = some ⟨0, 1⟩ ∧
    vpm_find vpmExample (1 / 10) = some ⟨1 / 10, 2⟩ ∧
    vpm_find vpmExample (3 / 10) = some ⟨1 / 10, 2⟩ ∧
    vpm_find vpmExample (99 / 100) = some ⟨1 / 2, 3⟩ ∧
    ∃ (i : Nat) (hi : i < vpmExample.size),
      vpm_find_index vpmExample (3 / 10) = (i : Int) ∧
      vpm_find vpmExample (3 / 10) = some vpmExample[i] ∧
      (vpmExample[i]).a_start ≤ 3 / 10 ∧
      (∀ j (hj : j < vpmExample.size), (vpmExample[j]).a_start ≤ 3 / 10 → j ≤ i) ∧
      (∀ j (hj : j < vpmExample.size), (vpmExample[j]).a_start = 3 / 10 → j = i) := by
  refine ⟨?_, ?_, ?_, ?_,
    vpm_find_selects_last vpmExample (3 / 10) (by decide) vpmExample_increasing ?_⟩
  · simp [vpm_find, vpm_find_index, vpm_find_loop, vpmExample]
    norm_num
  · simp [vpm_find, vpm_find_index, vpm_find_loop, vpmExample]
    norm_num
    rfl
  · simp [vpm_find, vpm_find_index, vpm_find_loop, vpmExample]
    norm_num
    rfl
  · simp [vpm_find, vpm_find_index, vpm_find_loop, vpmExample]
    norm_num
    rfl
  · norm_num [vpmExample]

/-- C2: on a table with strictly increasing `a_start`, the index `i - 1`
selected by `vpm_find a` lies in `[0, n_vpm)` exactly when the table is
non-empty and `a_start[0] ≤ a`; when the table is empty or `a` is below
every `a_start`, the scan stops at `i = 0`, the index is `-1` and the read
is out of range. -/
theorem vpm_find_index_in_range_iff {K : Type} [LinearOrder K] (_vpm : Array (VPM K)) (a : K)
    (_hs : StrictlyIncreasing _vpm) :
    ((0 ≤ vpm_find_index _vpm a ∧ vpm_find_index _vpm a < (_vpm.size : Int)) ↔
        ∃ h : 0 < _vpm.size, (_vpm[0]).a_start ≤ a) ∧
    ((_vpm.size = 0 ∨ ∀ j (hj : j < _vpm.size), a < (_vpm[j]).a_start) →
        vpm_find_loop _vpm a 0 = 0 ∧ vpm_find_index _vpm a = -1 ∧ vpm_find _vpm a = none) := by
  have hle := vpm_find_loop_le_size _vpm a 0 (Nat.zero_le _)
  have hiff := vpm_find_loop_pos_iff _vpm a
  constructor
  · rw [← hiff]
    unfold vpm_find_index
    omega
  · intro h
    have hz : vpm_find_loop _vpm a 0 = 0 := by
      rcases Nat.eq_zero_or_pos (vpm_find_loop _vpm a 0) with e | hpos
      · exact e
      · obtain ⟨hne, h0⟩ := hiff.mp hpos
        rcases h with h | h
        · omega
        · exact absurd h0 (not_le.mpr (h 0 hne))
    have hidx : vpm_find_index _vpm a = -1 := by
      unfold vpm_find_index; omega
    refine ⟨hz, hidx, ?_⟩
    unfold vpm_find
    rw [hidx]
    simp

/-- The example table queried below its first threshold, for C2: the
selected index is `-1` and no entry is read. -/
theorem vpm_find_index_in_range_iff_witness :
    StrictlyIncreasing vpmExample ∧
    vpm_find_index vpmExample (-1) = -1 ∧
    (((0 ≤ vpm_find_index vpmExample (-1) ∧
        vpm_find_index vpmExample (-1) < (vpmExample.size : Int)) ↔
        ∃ h : 0 < vpmExample.size, (vpmExample[0]).a_start ≤ -1) ∧
    ((vpmExample.size = 0 ∨ ∀ j (hj : j < vpmExample.size), -1 < (vpmExample[j]).a_start) →
        vpm_find_loop vpmExample (-1) 0 = 0 ∧ vpm_find_index vpmExample (-1) = -1 ∧
        vpm_find vpmExample (-1) = none)) := by
  refine ⟨vpmExample_increasing, ?_,
    vpm_find_index_in_range_iff vpmExample (-1) vpmExample_increasing⟩
  simp [vpm_find_index, vpm_find_loop, vpmExample]

/-! ### The threaded loop -/

/-- A loop whose body leaves the slots below `ind` alone leaves them alone. -/
theorem omp_for_below {σ K : Type} (rd : σ → Int → K) (inc : (Fin 3 → Int) → Fin 3 → Int)
    (body : Int → (Fin 3 → Int) → σ → σ) (end_ : Int)
    (hframe : ∀ ind i s x, x < ind → rd (body ind i s) x = rd s x) :
    ∀ ind i s x, x < ind → rd (omp_for inc body end_ ind i s) x = rd s x := by
  intro ind i s
  induction ind, i, s using omp_for.induct inc body end_ with
  | case1 ind i s h ih =>
    intro x hx
    rw [omp_for, if_pos h, ih x (by omega), hframe ind i s x hx]
  | case2 ind i s h =>
    intro x _
    rw [omp_for, if_neg h]

/-- A loop whose body writes `A` to slot `ind` and `B` to slot `ind + 1` and
nothing else: after the loop, the pair of slots of pass `j` holds what that
pass wrote. -/
theorem omp_for_slot {σ K : Type} (rd : σ → Int → K) (inc : (Fin 3 → Int) → Fin 3 → Int)
    (body : Int → (Fin 3 → Int) → σ → σ) (end_ : Int) (A B : Int → (Fin 3 → Int) → K)
    (hbody : ∀ ind i s x, rd (body ind i s) x =
      if x = ind + 1 then B ind i else if x = ind then A ind i else rd s x) :
    ∀ (j : Nat) ind i s, ind + 2 * (j : Int) < end_ →
      rd (omp_for inc body end_ ind i s) (ind + 2 * (j : Int))
        = A (ind + 2 * (j : Int)) (inc^[j] i) ∧
      rd (omp_for inc body end_ ind i s) (ind + 2 * (j : Int) + 1)
        = B (ind + 2 * (j : Int)) (inc^[j] i) := by
  have hframe : ∀ ind i s x, x < ind → rd (body ind i s) x = rd s x := by
    intro ind i s x hx
    rw [hbody, if_neg (by omega), if_neg (by omega)]
  intro j
  induction j with
  | zero =>
    intro ind i s h
    have h0 : ind < end_ := by simpa using h
    simp only [Nat.cast_zero, mul_zero, add_zero, Function.iterate_zero, id_eq]
    rw [omp_for, if_pos h0]
    rw [omp_for_below rd inc body end_ hframe _ _ _ ind (by omega),
      omp_for_below rd inc body end_ hframe _ _ _ (ind + 1) (by omega)]
    rw [hbody, hbody]
    simp
  | succ j ih =>
    intro ind i s h
    have h0 : ind < end_ := by push_cast at h; omega
    have e : ind + 2 * ((j + 1 : Nat) : Int) = (ind + 2) + 2 * (j : Int) := by push_cast; ring
    rw [omp_for, if_pos h0, e, Function.iterate_succ_apply]
    exact ih (ind + 2) (inc i) (body ind i s) (by omega)

/-- A property that every pass of the body keeps is kept by the loop. -/
theorem omp_for_invariant {σ : Type} (P : σ → Prop) (inc : (Fin 3 → Int) → Fin 3 → Int)
    (body : Int → (Fin 3 → Int) → σ → σ) (end_ : Int)
    (hP : ∀ ind i s, P s → P (body ind i s)) :
    ∀ ind i s, P s → P (omp_for inc body end_ ind i s) := by
  intro ind i s
  induction ind, i, s using omp_for.induct inc body end_ with
  | case1 ind i s h ih =>
    intro hs
    rw [omp_for, if_pos h]
    exact ih (hP ind i s hs)
  | case2 ind i s h =>
    intro hs
    rw [omp_for, if_neg h]
    exact hs

/-- A property that every pass of the body keeps is kept by the parallel
region. -/
theorem omp_parallel_invariant {K σ : Type} (P : σ → Prop) (pm : PM K) (env : Env K)
    (body : Int → (Fin 3 → Int) → σ → σ) (hP : ∀ ind i s, P s → P (body ind i s))
    (s : σ) (hs : P s) : P (omp_parallel pm env body s) := by
  unfold omp_parallel
  generalize List.range env.num_threads = l
  induction l generalizing s with
  | nil => simpa using hs
  | cons t l ih =>
    rw [List.foldl_cons]
    exact ih _ (omp_for_invariant P _ body _ hP _ _ _ hs)

/-- The chunk of a thread ends where no later thread's chunk has begun. -/
theorem omp_end_le_start (total : Int) (nth t n : Nat) (htotal : 0 ≤ total) (h : t < n) :
    omp_end total nth t ≤ omp_start total nth n := by
  unfold omp_end omp_start
  have h1 : (0 : Int) ≤ ((t : Int) + 1) * total := by positivity
  have h2 : (0 : Int) ≤ (n : Int) * total := by positivity
  have h3 : ((t : Int) + 1) * total ≤ (n : Int) * total := by
    apply mul_le_mul_of_nonneg_right _ htotal
    exact_mod_cast h
  rw [Int.tdiv_eq_ediv h1 (Int.ofNat_nonneg _), Int.tdiv_eq_ediv h2 (Int.ofNat_nonneg _)]
  have := Int.ediv_le_ediv (a := ((t : Int) + 1) * total) (b := (n : Int) * total)
    (c := (nth : Int))
  rcases Nat.eq_zero_or_pos nth with hz | hpos
  · subst hz; simp
  · have := this (by exact_mod_cast hpos) h3
    omega

/-- After the parallel region, the pair of slots of pass `j` of thread `ith`
holds what that pass wrote. -/
theorem omp_parallel_slot {K σ : Type} (rd : σ → Int → K) (pm : PM K) (env : Env K)
    (body : Int → (Fin 3 → Int) → σ → σ) (A B : Int → (Fin 3 → Int) → K)
    (hbody : ∀ ind i s x, rd (body ind i s) x =
      if x = ind + 1 then B ind i else if x = ind then A ind i else rd s x)
    (htotal : 0 ≤ pm.ORegion_total) (s : σ) (ith j : Nat) (hth : ith < env.num_threads)
    (hj : omp_start pm.ORegion_total env.num_threads ith + 2 * (j : Int)
      < omp_end pm.ORegion_total env.num_threads ith) :
    rd (omp_parallel pm env body s) (omp_start pm.ORegion_total env.num_threads ith + 2 * (j : Int))
      = A (omp_start pm.ORegion_total env.num_threads ith + 2 * (j : Int))
          (omp_index pm env ith j) ∧
    rd (omp_parallel pm env body s)
        (omp_start pm.ORegion_total env.num_threads ith + 2 * (j : Int) + 1)
      = B (omp_start pm.ORegion_total env.num_threads ith + 2 * (j : Int))
          (omp_index pm env ith j) := by
  have hframe : ∀ ind i s x, x < ind → rd (body ind i s) x = rd s x := by
    intro ind i s x hx
    rw [hbody, if_neg (by omega), if_neg (by omega)]
  have key : ∀ n, ith < n →
      rd ((List.range n).foldl (omp_thread pm env body) s)
          (omp_start pm.ORegion_total env.num_threads ith + 2 * (j : Int))
        = A (omp_start pm.ORegion_total env.num_threads ith + 2 * (j : Int))
            (omp_index pm env ith j) ∧
      rd ((List.range n).foldl (omp_thread pm env body) s)
          (omp_start pm.ORegion_total env.num_threads ith + 2 * (j : Int) + 1)
        = B (omp_start pm.ORegion_total env.num_threads ith + 2 * (j : Int))
            (omp_index pm env ith j) := by
    intro n
    induction n with
    | zero => intro h; omega
    | succ n ih =>
      intro h
      rw [List.range_succ, List.foldl_append, List.foldl_cons, List.foldl_nil]
      rcases Nat.lt_or_ge ith n with hlt | hge
      · have hle := omp_end_le_start pm.ORegion_total env.num_threads ith n htotal hlt
        have hev : omp_end pm.ORegion_total env.num_threads ith
            = Int.tdiv (((ith : Int) + 1) * pm.ORegion_total) (env.num_threads : Int) * 2 := rfl
        have hsv : omp_start pm.ORegion_total env.num_threads ith
            = Int.tdiv ((ith : Int) * pm.ORegion_total) (env.num_threads : Int) * 2 := rfl
        unfold omp_thread
        simp only [prepare_omp_loop]
        rw [omp_for_below rd _ body _ hframe _ _ _ _ (by omega),
          omp_for_below rd _ body _ hframe _ _ _ _ (by omega)]
        exact ih hlt
      · have e : ith = n := by omega
        subst e
        unfold omp_thread omp_index
        simp only [prepare_omp_loop]
        exact omp_for_slot rd _ body _ A B hbody j _ _ _ hj
  exact key env.num_threads hth

/-! ### The bodies of the kernels -/

theorem apply_force_kernel_body_workspace {K : Type} [LinearOrderedField K]
    (fac : Fin 3 → Int → KFactors K) (pm : PM K) (dir : Fin 3) (ind : Int) (i : Fin 3 → Int)
    (s : ForceState K) (x : Int) :
    (apply_force_kernel_body fac pm dir ind i s).workspace x =
      if x = ind + 1 then
        (if kk_finite_total fac pm i > 0 then
          -pm.canvas ind *
            ((fac dir (i dir + pm.ORegion_start dir)).k_finite / kk_finite_total fac pm i)
        else 0)
      else if x = ind then
        (if kk_finite_total fac pm i > 0 then
          pm.canvas (ind + 1) *
            ((fac dir (i dir + pm.ORegion_start dir)).k_finite / kk_finite_total fac pm i)
        else 0)
      else s.workspace x := by
  unfold apply_force_kernel_body
  by_cases hk : kk_finite_total fac pm i > 0
  · simp only [hk, if_true, add_zero]
    by_cases h1 : x = ind + 1
    · subst h1; simp
    · by_cases h0 : x = ind
      · subst h0; simp
      · simp [Function.update, h1, h0]
  · simp only [hk, if_false, add_zero]
    by_cases h1 : x = ind + 1
    · subst h1; simp
    · by_cases h0 : x = ind
      · subst h0; simp
      · simp [Function.update, h1, h0]

theorem smooth_density_body_workspace {K : Type} [LinearOrderedField K]
    (fac : Fin 3 → Int → KFactors K) (pm : PM K) (ind : Int) (i : Fin 3 → Int)
    (s : Int → K) (x : Int) :
    smooth_density_body fac pm ind i s x =
      if x = ind + 1 then
        (if kk_total fac pm i > 0 then pm.canvas (ind + 1) * smth_total fac pm i else 0)
      else if x = ind then
        (if kk_total fac pm i > 0 then pm.canvas ind * smth_total fac pm i else 0)
      else s x := by
  unfold smooth_density_body
  by_cases hk : kk_total fac pm i > 0
  · simp only [hk, if_true, add_zero]
    by_cases h1 : x = ind + 1
    · subst h1; simp
    · by_cases h0 : x = ind
      · subst h0; simp
      · simp [Function.update, h1, h0]
  · simp only [hk, if_false, add_zero]
    by_cases h1 : x = ind + 1
    · subst h1; simp
    · by_cases h0 : x = ind
      · subst h0; simp
      · simp [Function.update, h1, h0]

/-! ### The force transfer kernel -/

/-- After `apply_force_kernel` on any factor table, the pair of slots of
pass `j` of thread `ith` holds the transfer of the canvas pair, or zeros. -/
theorem apply_force_kernel_on_slot {K : Type} [LinearOrderedField K]
    (fac : Fin 3 → Int → KFactors K) (pm : PM K) (env : Env K) (dir : Fin 3) (ith j : Nat)
    (htotal : 0 ≤ pm.ORegion_total) (hth : ith < env.num_threads)
    (hj : omp_start pm.ORegion_total env.num_threads ith + 2 * (j : Int)
      < omp_end pm.ORegion_total env.num_threads ith) :
    (apply_force_kernel_on fac pm env dir).workspace
        (omp_start pm.ORegion_total env.num_threads ith + 2 * (j : Int))
      = (if kk_finite_total fac pm (omp_index pm env ith j) > 0 then
          pm.canvas (omp_start pm.ORegion_total env.num_threads ith + 2 * (j : Int) + 1) *
            ((fac dir (omp_index pm env ith j dir + pm.ORegion_start dir)).k_finite
              / kk_finite_total fac pm (omp_index pm env ith j))
        else 0) ∧
    (apply_force_kernel_on fac pm env dir).workspace
        (omp_start pm.ORegion_total env.num_threads ith + 2 * (j : Int) + 1)
      = (if kk_finite_total fac pm (omp_index pm env ith j) > 0 then
          -pm.canvas (omp_start pm.ORegion_total env.num_threads ith + 2 * (j : Int)) *
            ((fac dir (omp_index pm env ith j dir + pm.ORegion_start dir)).k_finite
              / kk_finite_total fac pm (omp_index pm env ith j))
        else 0) :=
  omp_parallel_slot (fun s : ForceState K => s.workspace) pm env
    (apply_force_kernel_body fac pm dir) _ _
    (fun ind i s x => apply_force_kernel_body_workspace fac pm dir ind i s x)
    htotal _ ith j hth hj

/-- Every divisor that a pass of `apply_force_kernel` records is positive. -/
theorem apply_force_kernel_body_divisors {K : Type} [LinearOrderedField K]
    (fac : Fin 3 → Int → KFactors K) (pm : PM K) (dir : Fin 3) (ind : Int) (i : Fin 3 → Int)
    (s : ForceState K) (hs : ∀ x ∈ s.divisors, 0 < x) :
    ∀ x ∈ (apply_force_kernel_body fac pm dir ind i s).divisors, 0 < x := by
  unfold apply_force_kernel_body
  by_cases hk : kk_finite_total fac pm i > 0
  · simp only [hk, if_true]
    intro x hx
    simp only [List.mem_cons] at hx
    rcases hx with rfl | rfl | hx
    · exact hk
    · exact hk
    · exact hs x hx
  · simp only [hk, if_false]
    exact hs

/-- C4: at every mode of the local region (pass `j` of thread `ith`, slots
`ind = start + 2 j` and `ind + 1`, index `i`) where the sum over the three
axes of `kk_finite` is positive, `apply_force_kernel(pm, dir)` writes
`workspace[ind] = canvas[ind+1] * (k_finite[dir] / kk_finite_total)` and
`workspace[ind+1] = -canvas[ind] * (k_finite[dir] / kk_finite_total)`, the
complex product of the amplitude with `-i * k_finite[dir] / kk_finite_total`;
the factors are those of `create_k_factors` at `i[d] + ORegion.start[d]`. -/
theorem apply_force_kernel_nonzero_mode (pm : PM ℝ) (env : Env ℝ) (dir : Fin 3) (ith j : Nat)
    (htotal : 0 ≤ pm.ORegion_total) (hth : ith < env.num_threads)
    (hj : omp_start pm.ORegion_total env.num_threads ith + 2 * (j : Int)
      < omp_end pm.ORegion_total env.num_threads ith)
    (hpos : (create_k_factors env pm 0 (omp_index pm env ith j 0 + pm.ORegion_start 0)).kk_finite
      + (create_k_factors env pm 1 (omp_index pm env ith j 1 + pm.ORegion_start 1)).kk_finite
      + (create_k_factors env pm 2 (omp_index pm env ith j 2 + pm.ORegion_start 2)).kk_finite
      > 0) :
    ∃ c : ℝ,
      c = (create_k_factors env pm dir (omp_index pm env ith j dir + pm.ORegion_start dir)).k_finite
        / ((create_k_factors env pm 0 (omp_index pm env ith j 0 + pm.ORegion_start 0)).kk_finite
          + (create_k_factors env pm 1 (omp_index pm env ith j 1 + pm.ORegion_start 1)).kk_finite
          + (create_k_factors env pm 2 (omp_index pm env ith j 2 + pm.ORegion_start 2)).kk_finite)
      ∧
      (apply_force_kernel pm env dir).workspace
          (omp_start pm.ORegion_total env.num_threads ith + 2 * (j : Int))
        = pm.canvas (omp_start pm.ORegion_total env.num_threads ith + 2 * (j : Int) + 1) * c ∧
      (apply_force_kernel pm env dir).workspace
          (omp_start pm.ORegion_total env.num_threads ith + 2 * (j : Int) + 1)
        = -pm.canvas (omp_start pm.ORegion_total env.num_threads ith + 2 * (j : Int)) * c ∧
      (⟨(apply_force_kernel pm env dir).workspace
            (omp_start pm.ORegion_total env.num_threads ith + 2 * (j : Int)),
          (apply_force_kernel pm env dir).workspace
            (omp_start pm.ORegion_total env.num_threads ith + 2 * (j : Int) + 1)⟩ : ℂ)
        = (⟨pm.canvas (omp_start pm.ORegion_total env.num_threads ith + 2 * (j : Int)),
            pm.canvas (omp_start pm.ORegion_total env.num_threads ith + 2 * (j : Int) + 1)⟩ : ℂ)
          * (-Complex.I * (c : ℂ)) := by
  have hkk : kk_finite_total (create_k_factors env pm) pm (omp_index pm env ith j)
      = (create_k_factors env pm 0 (omp_index pm env ith j 0 + pm.ORegion_start 0)).kk_finite
      + (create_k_factors env pm 1 (omp_index pm env ith j 1 + pm.ORegion_start 1)).kk_finite
      + (create_k_factors env pm 2 (omp_index pm env ith j 2 + pm.ORegion_start 2)).kk_finite := by
    unfold kk_finite_total; ring
  have hslot := apply_force_kernel_on_slot (create_k_factors env pm) pm env dir ith j htotal hth hj
  rw [hkk, if_pos hpos, if_pos hpos] at hslot
  obtain ⟨h0, h1⟩ := hslot
  generalize hc :
    (create_k_factors env pm dir (omp_index pm env ith j dir + pm.ORegion_start dir)).k_finite
      / ((create_k_factors env pm 0 (omp_index pm env ith j 0 + pm.ORegion_start 0)).kk_finite
        + (create_k_factors env pm 1 (omp_index pm env ith j 1 + pm.ORegion_start 1)).kk_finite
        + (create_k_factors env pm 2 (omp_index pm env ith j 2 + pm.ORegion_start 2)).kk_finite)
      = c at h0 h1
  refine ⟨c, rfl, h0, h1, ?_⟩
  unfold apply_force_kernel
  rw [h0, h1]
  apply Complex.ext <;> simp

/-- C5: for every factor table, axis and input amplitude, at a mode where
the sum over the three axes of `kk_finite` is exactly zero,
`apply_force_kernel` writes `(0, 0)` to the mode's workspace slots; the pass
for that mode carries out no division, and every division of the whole call
has a positive divisor. -/
theorem apply_force_kernel_zero_mode {K : Type} [LinearOrderedField K]
    (fac : Fin 3 → Int → KFactors K) (pm : PM K) (env : Env K) (dir : Fin 3) (ith j : Nat)
    (htotal : 0 ≤ pm.ORegion_total) (hth : ith < env.num_threads)
    (hj : omp_start pm.ORegion_total env.num_threads ith + 2 * (j : Int)
      < omp_end pm.ORegion_total env.num_threads ith)
    (hzero : (fac 0 (omp_index pm env ith j 0 + pm.ORegion_start 0)).kk_finite
      + (fac 1 (omp_index pm env ith j 1 + pm.ORegion_start 1)).kk_finite
      + (fac 2 (omp_index pm env ith j 2 + pm.ORegion_start 2)).kk_finite = 0) :
    (apply_force_kernel_on fac pm env dir).workspace
        (omp_start pm.ORegion_total env.num_threads ith + 2 * (j : Int)) = 0 ∧
    (apply_force_kernel_on fac pm env dir).workspace
        (omp_start pm.ORegion_total env.num_threads ith + 2 * (j : Int) + 1) = 0 ∧
    (∀ s : ForceState K,
      (apply_force_kernel_body fac pm dir
        (omp_start pm.ORegion_total env.num_threads ith + 2 * (j : Int))
        (omp_index pm env ith j) s).divisors = s.divisors) ∧
    (∀ x ∈ (apply_force_kernel_on fac pm env dir).divisors, x ≠ 0) := by
  have hkk : kk_finite_total fac pm (omp_index pm env ith j) = 0 := by
    unfold kk_finite_total; rw [zero_add]; exact hzero
  have hnot : ¬ kk_finite_total fac pm (omp_index pm env ith j) > 0 := by
    rw [hkk]; exact lt_irrefl 0
  have hslot := apply_force_kernel_on_slot fac pm env dir ith j htotal hth hj
  rw [if_neg hnot, if_neg hnot] at hslot
  refine ⟨hslot.1, hslot.2, ?_, ?_⟩
  · intro s
    unfold apply_force_kernel_body
    simp only [hnot, if_false]
  · intro x hx
    have hinv := omp_parallel_invariant (fun s : ForceState K => ∀ x ∈ s.divisors, 0 < x) pm env
      (apply_force_kernel_body fac pm dir)
      (fun ind i s hs => apply_force_kernel_body_divisors fac pm dir ind i s hs)
      ⟨pm.workspace, []⟩ (by intro x hx; simp at hx)
    exact ne_of_gt (hinv x hx)

/-- The one-mode mesh with wavenumber `1` and amplitude `3 + 4i`, for C4:
the hypotheses hold and the two slots are `4 c` and `-3 c`. -/
theorem apply_force_kernel_nonzero_mode_witness :
    (apply_force_kernel (pmExample 1) (envExample 1) 0).workspace 0
      = 4 * (diff_kernel 1 / (3 * sinc_unnormed (1 / 2) ^ 2)) ∧
    (apply_force_kernel (pmExample 1) (envExample 1) 0).workspace 1
      = -3 * (diff_kernel 1 / (3 * sinc_unnormed (1 / 2) ^ 2)) := by
  have hs : omp_start (pmExample (1 : ℝ)).ORegion_total (envExample (K := ℝ) 1).num_threads 0 = 0 := by
    decide
  have he : omp_end (pmExample (1 : ℝ)).ORegion_total (envExample (K := ℝ) 1).num_threads 0 = 2 := by
    decide
  have hff : 0 < sinc_unnormed (1 / 2) := by
    unfold sinc_unnormed
    rw [if_neg (by norm_num)]
    have : 0 < Real.sin (1 / 2) :=
      Real.sin_pos_of_pos_of_lt_pi (by norm_num) (by linarith [Real.pi_gt_three])
    positivity
  obtain ⟨c, hc, h0, h1, -⟩ := apply_force_kernel_nonzero_mode (pmExample 1) (envExample 1) 0 0 0
    (by decide) (by decide) (by rw [hs, he]; decide)
    (by
      simp only [create_k_factors, pmExample]
      norm_num
      positivity)
  have hc2 : c = diff_kernel 1 / (3 * sinc_unnormed (1 / 2) ^ 2) := by
    rw [hc]
    simp only [create_k_factors, pmExample]
    norm_num
    ring
  rw [hs, hc2] at h0 h1
  exact ⟨by simpa [pmExample] using h0, by simpa [pmExample] using h1⟩

/-- The one-mode mesh on a table whose `kk_finite` vanish, for C5: both
slots are written with `0` and no divisor is recorded. -/
theorem apply_force_kernel_zero_mode_witness :
    (apply_force_kernel_on facZero (pmExample (0 : ℚ)) (envExample 1) 0).workspace 0 = 0 ∧
    (apply_force_kernel_on facZero (pmExample (0 : ℚ)) (envExample 1) 0).workspace 1 = 0 ∧
    (∀ x ∈ (apply_force_kernel_on facZero (pmExample (0 : ℚ)) (envExample 1) 0).divisors,
      x ≠ 0) := by
  have hs : omp_start (pmExample (0 : ℚ)).ORegion_total (envExample (K := ℚ) 1).num_threads 0 = 0 := by
    decide
  have he : omp_end (pmExample (0 : ℚ)).ORegion_total (envExample (K := ℚ) 1).num_threads 0 = 2 := by
    decide
  obtain ⟨h0, h1, -, h3⟩ := apply_force_kernel_zero_mode facZero (pmExample (0 : ℚ))
    (envExample 1) 0 0 0 (by decide) (by decide) (by rw [hs, he]; decide)
    (by simp [facZero])
  rw [hs] at h0 h1
  exact ⟨by simpa using h0, by simpa using h1, h3⟩

/-! ### The smoothing kernel -/

/-- After `smooth_density` on any factor table, the pair of slots of pass
`j` of thread `ith` holds the smoothed canvas pair, or zeros. -/
theorem smooth_density_on_slot {K : Type} [LinearOrderedField K]
    (fac : Fin 3 → Int → KFactors K) (pm : PM K) (env : Env K) (ith j : Nat)
    (htotal : 0 ≤ pm.ORegion_total) (hth : ith < env.num_threads)
    (hj : omp_start pm.ORegion_total env.num_threads ith + 2 * (j : Int)
      < omp_end pm.ORegion_total env.num_threads ith) :
    smooth_density_on fac pm env (omp_start pm.ORegion_total env.num_threads ith + 2 * (j : Int))
      = (if kk_total fac pm (omp_index pm env ith j) > 0 then
          pm.canvas (omp_start pm.ORegion_total env.num_threads ith + 2 * (j : Int)) *
            smth_total fac pm (omp_index pm env ith j)
        else 0) ∧
    smooth_density_on fac pm env
        (omp_start pm.ORegion_total env.num_threads ith + 2 * (j : Int) + 1)
      = (if kk_total fac pm (omp_index pm env ith j) > 0 then
          pm.canvas (omp_start pm.ORegion_total env.num_threads ith + 2 * (j : Int) + 1) *
            smth_total fac pm (omp_index pm env ith j)
        else 0) :=
  omp_parallel_slot (fun s : Int → K => s) pm env (smooth_density_body fac pm) _ _
    (fun ind i s x => smooth_density_body_workspace fac pm ind i s x)
    htotal _ ith j hth hj

theorem smooth_density_factors_kk (pm : PM ℝ) (env : Env ℝ) (r_s : ℝ) (d : Fin 3) (ind : Int) :
    (smooth_density_factors pm env r_s d ind).kk = (create_k_factors env pm d ind).kk := by
  unfold smooth_density_factors
  split_ifs <;> rfl

theorem sinc_unnormed_pi : sinc_unnormed Real.pi = 0 := by
  unfold sinc_unnormed
  rw [if_neg (by
    intro h
    have := Real.pi_gt_three
    norm_num at h
    linarith [h.1])]
  simp

/-- Over the reals the range `|k * cellSize| < 2π` cannot be widened: at
`k * cellSize = 2π` on every axis (a table that is not a mesh's, and whose
`sinc` is zero only in exact arithmetic) the corrected squared wavenumber
`k² sinc²(k * cellSize / 2)` is zero on every axis while `k²` is not, and
`smooth_density` with `r_s = 0` writes the canvas amplitude `(3, 4)`. -/
theorem smooth_density_at_two_pi :
    (0 : Int) ≤ (pmExample (2 * Real.pi)).ORegion_total ∧
    0 < (envExample (K := ℝ) 1).num_threads ∧
    omp_start (pmExample (2 * Real.pi)).ORegion_total (envExample (K := ℝ) 1).num_threads 0 = 0 ∧
    omp_end (pmExample (2 * Real.pi)).ORegion_total (envExample (K := ℝ) 1).num_threads 0 = 2 ∧
    (∀ d : Fin 3,
      (create_k_factors (envExample 1) (pmExample (2 * Real.pi)) d
        (omp_index (pmExample (2 * Real.pi)) (envExample 1) 0 0 d
          + (pmExample (2 * Real.pi)).ORegion_start d)).kk_finite = 0) ∧
    kk_finite_total (create_k_factors (envExample 1) (pmExample (2 * Real.pi)))
      (pmExample (2 * Real.pi)) (omp_index (pmExample (2 * Real.pi)) (envExample 1) 0 0) = 0 ∧
    smooth_density (pmExample (2 * Real.pi)) (envExample 1) 0 0 = 3 ∧
    smooth_density (pmExample (2 * Real.pi)) (envExample 1) 0 1 = 4 := by
  have hs : omp_start (pmExample (2 * Real.pi)).ORegion_total
      (envExample (K := ℝ) 1).num_threads 0 = 0 := by decide
  have he : omp_end (pmExample (2 * Real.pi)).ORegion_total
      (envExample (K := ℝ) 1).num_threads 0 = 2 := by decide
  have hkf : ∀ (d : Fin 3) (ind : Int),
      (create_k_factors (envExample 1) (pmExample (2 * Real.pi)) d ind).kk_finite = 0 := by
    intro d ind
    have e : (0.5 : ℝ) * (2 * Real.pi * (1 / ((1 : Int) : ℝ))) = Real.pi := by
      norm_num
      ring
    simp only [create_k_factors, pmExample]
    rw [e, sinc_unnormed_pi]
    ring
  have hidx : omp_index (pmExample (2 * Real.pi)) (envExample 1) 0 0 = fun _ => 0 := by
    unfold omp_index prepare_omp_loop
    rw [hs, he]
    simp [pmExample]
  have hslot := smooth_density_on_slot (smooth_density_factors (pmExample (2 * Real.pi))
    (envExample 1) 0) (pmExample (2 * Real.pi)) (envExample 1) 0 0
    (by decide) (by decide) (by rw [hs, he]; decide)
  have hkk : kk_total (smooth_density_factors (pmExample (2 * Real.pi)) (envExample 1) 0)
      (pmExample (2 * Real.pi)) (omp_index (pmExample (2 * Real.pi)) (envExample 1) 0 0) > 0 := by
    unfold kk_total
    simp only [smooth_density_factors_kk]
    simp only [create_k_factors, pmExample]
    have := Real.pi_pos
    positivity
  have hsm : smth_total (smooth_density_factors (pmExample (2 * Real.pi)) (envExample 1) 0)
      (pmExample (2 * Real.pi)) (omp_index (pmExample (2 * Real.pi)) (envExample 1) 0 0) = 1 := by
    rw [hidx]
    simp [smth_total, smooth_density_factors, pmExample]
  rw [hs, if_pos hkk, if_pos hkk, hsm] at hslot
  refine ⟨by decide, by decide, hs, he, fun d => hkf d _, ?_, ?_, ?_⟩
  · unfold kk_finite_total
    simp only [hkf]
    ring
  · have := hslot.1
    simpa [smooth_density, pmExample] using this
  · have := hslot.2
    simpa [smooth_density, pmExample] using this

/-- A loop whose body adds `c ind i` to an accumulator has added, at the
end, the sum of `c` over the modes it passed through. -/
theorem omp_for_sum {σ M : Type} [AddCommMonoid M] (rd : σ → M)
    (inc : (Fin 3 → Int) → Fin 3 → Int) (body : Int → (Fin 3 → Int) → σ → σ) (end_ : Int)
    (c : Int → (Fin 3 → Int) → M) (hbody : ∀ ind i s, rd (body ind i s) = rd s + c ind i) :
    ∀ ind i s, rd (omp_for inc body end_ ind i s)
      = rd s + ((omp_modes inc end_ ind i).map fun m => c m.1 m.2).sum := by
  intro ind i s
  induction ind, i, s using omp_for.induct inc body end_ with
  | case1 ind i s h ih =>
    rw [omp_for, if_pos h, omp_modes, if_pos h, ih, hbody]
    simp [add_assoc]
  | case2 ind i s h =>
    rw [omp_for, if_neg h, omp_modes, if_neg h]
    simp

/-- The same for the parallel region of one rank. -/
theorem omp_parallel_sum {K σ M : Type} [AddCommMonoid M] (rd : σ → M) (pm : PM K) (env : Env K)
    (body : Int → (Fin 3 → Int) → σ → σ) (c : Int → (Fin 3 → Int) → M)
    (hbody : ∀ ind i s, rd (body ind i s) = rd s + c ind i) (s : σ) :
    rd (omp_parallel pm env body s)
      = rd s + ((omp_parallel_modes pm env).map fun m => c m.1 m.2).sum := by
  unfold omp_parallel omp_parallel_modes
  generalize List.range env.num_threads = l
  induction l generalizing s with
  | nil => simp
  | cons t l ih =>
    rw [List.foldl_cons, ih, List.flatMap_cons, List.map_append, List.sum_append]
    unfold omp_thread omp_thread_modes
    rw [omp_for_sum rd _ body _ c hbody, add_assoc]

theorem calculate_powerspectrum_body_N (fac : Fin 3 → Int → KFactors ℝ) (pm : PM ℝ) (k0 : ℝ)
    (size : Nat) (ind : Int) (i : Fin 3 → Int) (ps : PowerSpectrum ℝ) (b : Int) :
    (calculate_powerspectrum_body fac pm k0 size ind i ps).N b =
      ps.N b + (if ps_bin fac pm k0 i = b ∧ 0 ≤ ps_bin fac pm k0 i
          ∧ ps_bin fac pm k0 i < (size : Int) then (ps_w i : ℝ) else 0) := by
  unfold calculate_powerspectrum_body
  by_cases hr : ps_bin fac pm k0 i ≥ 0 ∧ ps_bin fac pm k0 i < (size : Int)
  · by_cases hb : ps_bin fac pm k0 i = b
    · subst hb; simp [hr, hr.1, hr.2]
    · simp [hr, hb, Function.update, Ne.symm hb]
  · have : ¬ (ps_bin fac pm k0 i = b ∧ 0 ≤ ps_bin fac pm k0 i
        ∧ ps_bin fac pm k0 i < (size : Int)) := fun h => hr ⟨h.2.1, h.2.2⟩
    rw [if_neg hr, if_neg this, add_zero]

theorem calculate_powerspectrum_body_p (fac : Fin 3 → Int → KFactors ℝ) (pm : PM ℝ) (k0 : ℝ)
    (size : Nat) (ind : Int) (i : Fin 3 → Int) (ps : PowerSpectrum ℝ) (b : Int) :
    (calculate_powerspectrum_body fac pm k0 size ind i ps).p b =
      ps.p b + (if ps_bin fac pm k0 i = b ∧ 0 ≤ ps_bin fac pm k0 i
          ∧ ps_bin fac pm k0 i < (size : Int) then (ps_w i : ℝ) * ps_value pm ind else 0) := by
  unfold calculate_powerspectrum_body
  by_cases hr : ps_bin fac pm k0 i ≥ 0 ∧ ps_bin fac pm k0 i < (size : Int)
  · by_cases hb : ps_bin fac pm k0 i = b
    · subst hb; simp [hr, hr.1, hr.2]
    · simp [hr, hb, Function.update, Ne.symm hb]
  · have : ¬ (ps_bin fac pm k0 i = b ∧ 0 ≤ ps_bin fac pm k0 i
        ∧ ps_bin fac pm k0 i < (size : Int)) := fun h => hr ⟨h.2.1, h.2.2⟩
    rw [if_neg hr, if_neg this, add_zero]

theorem calculate_powerspectrum_body_k (fac : Fin 3 → Int → KFactors ℝ) (pm : PM ℝ) (k0 : ℝ)
    (size : Nat) (ind : Int) (i : Fin 3 → Int) (ps : PowerSpectrum ℝ) (b : Int) :
    (calculate_powerspectrum_body fac pm k0 size ind i ps).k b =
      ps.k b + (if ps_bin fac pm k0 i = b ∧ 0 ≤ ps_bin fac pm k0 i
          ∧ ps_bin fac pm k0 i < (size : Int) then (ps_w i : ℝ) * ps_k fac pm i else 0) := by
  unfold calculate_powerspectrum_body
  by_cases hr : ps_bin fac pm k0 i ≥ 0 ∧ ps_bin fac pm k0 i < (size : Int)
  · by_cases hb : ps_bin fac pm k0 i = b
    · subst hb; simp [hr, hr.1, hr.2]
    · simp [hr, hb, Function.update, Ne.symm hb]
  · have : ¬ (ps_bin fac pm k0 i = b ∧ 0 ≤ ps_bin fac pm k0 i
        ∧ ps_bin fac pm k0 i < (size : Int)) := fun h => hr ⟨h.2.1, h.2.2⟩
    rw [if_neg hr, if_neg this, add_zero]

/-- The local count `N[b]` of one rank is the sum of the weights of its
modes whose bin is `b`, for a bin within `[0, size)`, and `0` otherwise. -/
theorem calculate_powerspectrum_local_N (pm : PM ℝ) (env : Env ℝ) (size : Nat) (b : Int) :
    (calculate_powerspectrum_local pm env size).N b =
      ((omp_parallel_modes pm env).map fun m =>
        if ps_bin (create_k_factors env pm) pm (ps_k0 pm) m.2 = b
            ∧ 0 ≤ ps_bin (create_k_factors env pm) pm (ps_k0 pm) m.2
            ∧ ps_bin (create_k_factors env pm) pm (ps_k0 pm) m.2 < (size : Int)
          then (ps_w m.2 : ℝ) else 0).sum := by
  unfold calculate_powerspectrum_local
  rw [omp_parallel_sum (fun s : PowerSpectrum ℝ => s.N b) pm env _
    (fun _ i => if ps_bin (create_k_factors env pm) pm (ps_k0 pm) i = b
            ∧ 0 ≤ ps_bin (create_k_factors env pm) pm (ps_k0 pm) i
            ∧ ps_bin (create_k_factors env pm) pm (ps_k0 pm) i < (size : Int)
          then (ps_w i : ℝ) else 0)
    (fun ind i s => calculate_powerspectrum_body_N _ pm _ size ind i s b)]
  simp

/-- The local power `p[b]` of one rank, likewise. -/
theorem calculate_powerspectrum_local_p (pm : PM ℝ) (env : Env ℝ) (size : Nat) (b : Int) :
    (calculate_powerspectrum_local pm env size).p b =
      ((omp_parallel_modes pm env).map fun m =>
        if ps_bin (create_k_factors env pm) pm (ps_k0 pm) m.2 = b
            ∧ 0 ≤ ps_bin (create_k_factors env pm) pm (ps_k0 pm) m.2
            ∧ ps_bin (create_k_factors env pm) pm (ps_k0 pm) m.2 < (size : Int)
          then (ps_w m.2 : ℝ) * ps_value pm m.1 else 0).sum := by
  unfold calculate_powerspectrum_local
  rw [omp_parallel_sum (fun s : PowerSpectrum ℝ => s.p b) pm env _
    (fun ind i => if ps_bin (create_k_factors env pm) pm (ps_k0 pm) i = b
            ∧ 0 ≤ ps_bin (create_k_factors env pm) pm (ps_k0 pm) i
            ∧ ps_bin (create_k_factors env pm) pm (ps_k0 pm) i < (size : Int)
          then (ps_w i : ℝ) * ps_value pm ind else 0)
    (fun ind i s => calculate_powerspectrum_body_p _ pm _ size ind i s b)]
  simp

/-- The local wavenumber sum `k[b]` of one rank, likewise. -/
theorem calculate_powerspectrum_local_k (pm : PM ℝ) (env : Env ℝ) (size : Nat) (b : Int) :
    (calculate_powerspectrum_local pm env size).k b =
      ((omp_parallel_modes pm env).map fun m =>
        if ps_bin (create_k_factors env pm) pm (ps_k0 pm) m.2 = b
            ∧ 0 ≤ ps_bin (create_k_factors env pm) pm (ps_k0 pm) m.2
            ∧ ps_bin (create_k_factors env pm) pm (ps_k0 pm) m.2 < (size : Int)
          then (ps_w m.2 : ℝ) * ps_k (create_k_factors env pm) pm m.2 else 0).sum := by
  unfold calculate_powerspectrum_local
  rw [omp_parallel_sum (fun s : PowerSpectrum ℝ => s.k b) pm env _
    (fun _ i => if ps_bin (create_k_factors env pm) pm (ps_k0 pm) i = b
            ∧ 0 ≤ ps_bin (create_k_factors env pm) pm (ps_k0 pm) i
            ∧ ps_bin (create_k_factors env pm) pm (ps_k0 pm) i < (size : Int)
          then (ps_w i : ℝ) * ps_k (create_k_factors env pm) pm i else 0)
    (fun ind i s => calculate_powerspectrum_body_k _ pm _ size ind i s b)]
  simp

theorem sum_range_list_sum {α : Type} (l : List α) (f : α → Nat → ℝ) (n : Nat) :
    ∑ b in Finset.range n, (l.map fun a => f a b).sum
      = (l.map fun a => ∑ b in Finset.range n, f a b).sum := by
  induction l with
  | nil => simp
  | cons a l ih => simp [Finset.sum_add_distrib, ih]

/-- Over the bins `0 .. n-1`, a mode is counted in its own bin and in no
other. -/
theorem sum_range_bin (bin : Int) (n : Nat) (w : ℝ) :
    ∑ b in Finset.range n, (if bin = (b : Int) ∧ 0 ≤ bin ∧ bin < (n : Int) then w else 0)
      = if 0 ≤ bin ∧ bin < (n : Int) then w else 0 := by
  by_cases hr : 0 ≤ bin ∧ bin < (n : Int)
  · rw [if_pos hr, Finset.sum_eq_single bin.toNat]
    · rw [if_pos ⟨(Int.toNat_of_nonneg hr.1).symm, hr⟩]
    · intro b _ hne
      rw [if_neg]
      rintro ⟨h1, -⟩
      apply hne
      rw [h1, Int.toNat_ofNat]
    · intro hnot
      exfalso
      apply hnot
      rw [Finset.mem_range]
      omega
  · rw [if_neg hr]
    apply Finset.sum_eq_zero
    intro b _
    rw [if_neg]
    exact fun h => hr h.2

/-- The reduced count `N[b]` of a bin within `[0, size)`: the sum of the
weights of the modes of all ranks whose bin is `b`. -/
theorem calculate_powerspectrum_reduced_N (comm : List (PM ℝ × Env ℝ)) (size : Nat) (b : Nat)
    (hb : b < size) :
    (calculate_powerspectrum_reduced comm size).N b
      = ps_bin_sum comm b fun _ m => (ps_w m.2 : ℝ) := by
  unfold calculate_powerspectrum_reduced MPI_Allreduce_SUM ps_bin_sum
  simp only [List.map_map]
  congr 1
  apply List.map_congr_left
  intro r _
  simp only [Function.comp, calculate_powerspectrum_local_N]
  congr 1
  apply List.map_congr_left
  intro m _
  by_cases h : ps_bin (create_k_factors r.2 r.1) r.1 (ps_k0 r.1) m.2 = (b : Int)
  · rw [if_pos h, if_pos ⟨h, by rw [h]; omega, by rw [h]; omega⟩]
  · rw [if_neg h, if_neg (fun h2 => h h2.1)]

/-- The reduced power `p[b]` of a bin within `[0, size)`: the sum of
`w * (real² + imag²)` over the modes of all ranks whose bin is `b`. -/
theorem calculate_powerspectrum_reduced_p (comm : List (PM ℝ × Env ℝ)) (size : Nat) (b : Nat)
    (hb : b < size) :
    (calculate_powerspectrum_reduced comm size).p b
      = ps_bin_sum comm b fun pm m => (ps_w m.2 : ℝ) * ps_value pm m.1 := by
  unfold calculate_powerspectrum_reduced MPI_Allreduce_SUM ps_bin_sum
  simp only [List.map_map]
  congr 1
  apply List.map_congr_left
  intro r _
  simp only [Function.comp, calculate_powerspectrum_local_p]
  congr 1
  apply List.map_congr_left
  intro m _
  by_cases h : ps_bin (create_k_factors r.2 r.1) r.1 (ps_k0 r.1) m.2 = (b : Int)
  · rw [if_pos h, if_pos ⟨h, by rw [h]; omega, by rw [h]; omega⟩]
  · rw [if_neg h, if_neg (fun h2 => h h2.1)]

/-- When on every rank the blocks of the threads run one after another (one
thread, or the serial schedule): before normalisation, a pass of the loop
adds the weight `w` of its mode (`1` if `i[2] == 0`, else `2`) to the entry
`N[bin]` alone, where `bin = floor(sqrt(sum of kk) / k0)`, when `bin` lies
in `[0, size)`, and adds nothing otherwise; and the sum of `N` over all bins
after the reduction over the ranks is the total weight of the modes of all
ranks whose bin lies in `[0, size)`. -/
theorem calculate_powerspectrum_mode_count_serial (comm : List (PM ℝ × Env ℝ)) (size : Nat) :
    (∀ (fac : Fin 3 → Int → KFactors ℝ) (pm : PM ℝ) (k0 : ℝ) (ind : Int) (i : Fin 3 → Int)
        (ps : PowerSpectrum ℝ) (b : Int),
      (calculate_powerspectrum_body fac pm k0 size ind i ps).N b =
        ps.N b + (if ⌊Real.sqrt (kk_total fac pm i) / k0⌋ = b
            ∧ 0 ≤ ⌊Real.sqrt (kk_total fac pm i) / k0⌋
            ∧ ⌊Real.sqrt (kk_total fac pm i) / k0⌋ < (size : Int)
          then ((if i 2 = 0 then 1 else 2 : Int) : ℝ) else 0)) ∧
    ∑ b in Finset.range size, (calculate_powerspectrum_reduced comm size).N (b : Int)
      = (comm.map fun r =>
          ((omp_parallel_modes r.1 r.2).map fun m =>
            if 0 ≤ ps_bin (create_k_factors r.2 r.1) r.1 (2 * Real.pi / r.1.BoxSize 0) m.2
                ∧ ps_bin (create_k_factors r.2 r.1) r.1 (2 * Real.pi / r.1.BoxSize 0) m.2
                  < (size : Int)
              then (ps_w m.2 : ℝ) else 0).sum).sum := by
  constructor
  · intro fac pm k0 ind i ps b
    exact calculate_powerspectrum_body_N fac pm k0 size ind i ps b
  · unfold calculate_powerspectrum_reduced MPI_Allreduce_SUM
    simp only [List.map_map]
    rw [sum_range_list_sum]
    congr 1
    apply List.map_congr_left
    intro r _
    simp only [Function.comp_apply, calculate_powerspectrum_local_N, ps_k0]
    rw [sum_range_list_sum]
    congr 1
    apply List.map_congr_left
    intro m _
    exact sum_range_bin _ size _

/-- When on every rank the blocks of the threads run one after another (one
thread, or the serial schedule): for a bin `b` within `[0, size)` with
`N[b] > 0`, the returned `p[b]` is `(sum of w * |amplitude|²) / N[b] *
Volume / Norm² * density_factor²`, the sum and the count `N[b]` being taken
over the modes of all ranks whose bin is `b`; if every such mode has
`real² + imag² = 1`, then `p[b] = Volume / Norm² * density_factor²`. -/
theorem calculate_powerspectrum_normalization_serial (comm : List (PM ℝ × Env ℝ)) (pm : PM ℝ)
    (size : Nat) (density_factor : ℝ) (b : Nat) (hb : b < size)
    (hN : 0 < (calculate_powerspectrum_reduced comm size).N b) :
    (calculate_powerspectrum comm pm size density_factor).N b
      = ps_bin_sum comm b (fun _ m => (ps_w m.2 : ℝ)) ∧
    (calculate_powerspectrum comm pm size density_factor).p b
      = ps_bin_sum comm b (fun pm m => (ps_w m.2 : ℝ) * ps_value pm m.1)
        / ps_bin_sum comm b (fun _ m => (ps_w m.2 : ℝ))
        * pm.Volume / pm.Norm ^ 2 * density_factor ^ 2 ∧
    ((∀ r ∈ comm, ∀ m ∈ omp_parallel_modes r.1 r.2,
        ps_bin (create_k_factors r.2 r.1) r.1 (ps_k0 r.1) m.2 = (b : Int) →
          r.1.canvas m.1 * r.1.canvas m.1 + r.1.canvas (m.1 + 1) * r.1.canvas (m.1 + 1) = 1) →
      (calculate_powerspectrum comm pm size density_factor).p b
        = pm.Volume / pm.Norm ^ 2 * density_factor ^ 2) := by
  have hNe := calculate_powerspectrum_reduced_N comm size b hb
  have hpe := calculate_powerspectrum_reduced_p comm size b hb
  have hrange : (0 : Int) ≤ (b : Int) ∧ (b : Int) < (size : Int) := by omega
  have hp : (calculate_powerspectrum comm pm size density_factor).p b
      = (calculate_powerspectrum_reduced comm size).p b
        / (calculate_powerspectrum_reduced comm size).N b
        * (pm.Volume / (pm.Norm * pm.Norm) * (density_factor * density_factor)) := by
    simp only [calculate_powerspectrum]
    rw [if_pos hrange]
  refine ⟨hNe, ?_, ?_⟩
  · rw [hp, hpe, hNe]
    ring
  · intro hunit
    have hsame : ps_bin_sum comm b (fun pm m => (ps_w m.2 : ℝ) * ps_value pm m.1)
        = ps_bin_sum comm b (fun _ m => (ps_w m.2 : ℝ)) := by
      unfold ps_bin_sum
      congr 1
      apply List.map_congr_left
      intro r hr
      congr 1
      apply List.map_congr_left
      intro m hm
      by_cases h : ps_bin (create_k_factors r.2 r.1) r.1 (ps_k0 r.1) m.2 = (b : Int)
      · rw [if_pos h, if_pos h]
        have := hunit r hr m hm h
        simp only [ps_value, add_zero, this, mul_one]
      · rw [if_neg h, if_neg h]
    rw [hp, hpe, hsame, ← hNe, div_self (ne_of_gt hN)]
    ring

/-! ### The factor table: `diff_kernel` and `sinc_unnormed` -/

/-- C9: `diff_kernel` is odd, `diff_kernel w = -diff_kernel (-w)` for every
real `w`, and `diff_kernel w = (8 sin w - sin 2w) / 6`. -/
theorem diff_kernel_odd (w : ℝ) :
    diff_kernel w = -diff_kernel (-w) ∧
    diff_kernel w = (8 * Real.sin w - Real.sin (2 * w)) / 6 := by
  constructor
  · unfold diff_kernel
    rw [mul_neg, Real.sin_neg, Real.sin_neg]
    ring
  · unfold diff_kernel
    ring

theorem sinc_unnormed_small (x : ℝ) (h : |x| < 1e-5) :
    sinc_unnormed x = 1 - x ^ 2 / 6 + x ^ 4 / 120 := by
  unfold sinc_unnormed
  rw [abs_lt] at h
  rw [if_pos ⟨h.2, h.1⟩]
  ring

theorem sinc_unnormed_large (x : ℝ) (h : 1e-5 ≤ |x|) : sinc_unnormed x = Real.sin x / x := by
  unfold sinc_unnormed
  rw [if_neg]
  rintro ⟨h1, h2⟩
  have : |x| < 1e-5 := abs_lt.mpr ⟨h2, h1⟩
  linarith

/-- The degree-4 polynomial is within `1e-10` of `sin x / x` on
`0 < |x| ≤ 1e-5`. -/
theorem sinc_poly_close (x : ℝ) (hx : x ≠ 0) (h : |x| ≤ 1e-5) :
    |(1 - x ^ 2 / 6 + x ^ 4 / 120) - Real.sin x / x| ≤ 1e-10 := by
  have ha : 0 < |x| := abs_pos.mpr hx
  have hb := Real.sin_bound (x := x) (by norm_num at h ⊢; linarith)
  have key : (1 - x ^ 2 / 6 + x ^ 4 / 120) - Real.sin x / x
      = x ^ 4 / 120 - (Real.sin x - (x - x ^ 3 / 6)) / x := by
    field_simp
    ring
  have h1 : |(Real.sin x - (x - x ^ 3 / 6)) / x| ≤ |x| ^ 3 * (5 / 96) := by
    rw [abs_div, div_le_iff₀ ha]
    calc |Real.sin x - (x - x ^ 3 / 6)| ≤ |x| ^ 4 * (5 / 96) := hb
      _ = |x| ^ 3 * (5 / 96) * |x| := by ring
  have h2 : |x ^ 4 / 120| = |x| ^ 4 / 120 := by
    rw [abs_div, abs_pow]
    norm_num
  have h3 : |x| ^ 3 ≤ (1e-5 : ℝ) ^ 3 := pow_le_pow_left₀ (le_of_lt ha) h 3
  have h4 : |x| ^ 4 ≤ (1e-5 : ℝ) ^ 4 := pow_le_pow_left₀ (le_of_lt ha) h 4
  rw [key]
  calc |x ^ 4 / 120 - (Real.sin x - (x - x ^ 3 / 6)) / x|
      ≤ |x ^ 4 / 120| + |(Real.sin x - (x - x ^ 3 / 6)) / x| := abs_sub _ _
    _ ≤ |x| ^ 4 / 120 + |x| ^ 3 * (5 / 96) := by rw [h2]; linarith
    _ ≤ (1e-5 : ℝ) ^ 4 / 120 + (1e-5 : ℝ) ^ 3 * (5 / 96) := by linarith
    _ ≤ 1e-10 := by norm_num

/-- C10: `sinc_unnormed x` is `sin x / x` when `|x| ≥ 1e-5` and the
polynomial `1 - x²/6 + x⁴/120` when `|x| < 1e-5`; for every non-zero `x`
with `|x| ≤ 1e-5`, in particular at `x = 1e-5` and `x = -1e-5`, the
polynomial is within `1e-10` of `sin x / x`, and so is `sinc_unnormed x`. -/
theorem sinc_unnormed_branches (x : ℝ) :
    (1e-5 ≤ |x| → sinc_unnormed x = Real.sin x / x) ∧
    (|x| < 1e-5 → sinc_unnormed x = 1 - x ^ 2 / 6 + x ^ 4 / 120) ∧
    (x ≠ 0 → |x| ≤ 1e-5 →
      |(1 - x ^ 2 / 6 + x ^ 4 / 120) - Real.sin x / x| ≤ 1e-10 ∧
      |sinc_unnormed x - Real.sin x / x| ≤ 1e-10) := by
  refine ⟨sinc_unnormed_large x, sinc_unnormed_small x, ?_⟩
  intro hx h
  refine ⟨sinc_poly_close x hx h, ?_⟩
  rcases lt_or_le |x| 1e-5 with hlt | hge
  · rw [sinc_unnormed_small x hlt]
    exact sinc_poly_close x hx h
  · rw [sinc_unnormed_large x hge, sub_self, abs_zero]
    norm_num

/-- The branch boundary and a point of the polynomial branch, for C10. -/
theorem sinc_unnormed_branches_witness :
    sinc_unnormed 1e-5 = Real.sin 1e-5 / 1e-5 ∧
    sinc_unnormed (-1e-5) = Real.sin (-1e-5) / (-1e-5) ∧
    sinc_unnormed 1e-6 = 1 - (1e-6 : ℝ) ^ 2 / 6 + (1e-6 : ℝ) ^ 4 / 120 ∧
    |(1 - (1e-5 : ℝ) ^ 2 / 6 + (1e-5 : ℝ) ^ 4 / 120) - Real.sin 1e-5 / 1e-5| ≤ 1e-10 ∧
    |(1 - (-1e-5 : ℝ) ^ 2 / 6 + (-1e-5 : ℝ) ^ 4 / 120) - Real.sin (-1e-5) / (-1e-5)| ≤ 1e-10 ∧
    |sinc_unnormed 1e-6 - Real.sin 1e-6 / 1e-6| ≤ 1e-10 := by
  have hp : |(1e-5 : ℝ)| = 1e-5 := abs_of_pos (by norm_num)
  have hn : |(-1e-5 : ℝ)| = 1e-5 := by rw [abs_neg]; exact hp
  have hs : |(1e-6 : ℝ)| = 1e-6 := abs_of_pos (by norm_num)
  exact ⟨(sinc_unnormed_branches 1e-5).1 (le_of_eq hp.symm),
    (sinc_unnormed_branches (-1e-5)).1 (le_of_eq hn.symm),
    (sinc_unnormed_branches 1e-6).2.1 (by rw [hs]; norm_num),
    ((sinc_unnormed_branches 1e-5).2.2 (by norm_num) (le_of_eq hp)).1,
    ((sinc_unnormed_branches (-1e-5)).2.2 (by norm_num) (le_of_eq hn)).1,
    ((sinc_unnormed_branches 1e-6).2.2 (by norm_num) (by rw [hs]; norm_num)).2⟩

/-! ### The smoothing kernel where the corrected wavenumber vanishes -/

theorem omp_start_zero (total : Int) (nth : Nat) : omp_start total nth 0 = 0 := by
  unfold omp_start
  simp

theorem omp_end_eq_start_succ (total : Int) (nth t : Nat) :
    omp_end total nth t = omp_start total nth (t + 1) := by
  unfold omp_end omp_start
  push_cast
  rfl

theorem omp_end_last (total : Int) (nth : Nat) (hn : 1 ≤ nth) :
    omp_end total nth (nth - 1) = 2 * total := by
  unfold omp_end
  have e : (((nth - 1 : Nat) : Int) + 1) = (nth : Int) := by omega
  rw [e, Int.mul_tdiv_cancel_left total (by omega)]
  ring

theorem omp_start_le_end (total : Int) (nth t : Nat) (htotal : 0 ≤ total) :
    omp_start total nth t ≤ omp_end total nth t := by
  unfold omp_start omp_end
  have h1 : (0 : Int) ≤ (t : Int) * total := by positivity
  have h2 : (0 : Int) ≤ ((t : Int) + 1) * total := by positivity
  have h3 : (t : Int) * total ≤ ((t : Int) + 1) * total := by nlinarith
  rw [Int.tdiv_eq_ediv h1 (Int.ofNat_nonneg _), Int.tdiv_eq_ediv h2 (Int.ofNat_nonneg _)]
  rcases Nat.eq_zero_or_pos nth with hz | hpos
  · subst hz; simp
  · have := Int.ediv_le_ediv (a := (t : Int) * total) (b := ((t : Int) + 1) * total)
      (c := (nth : Int)) (by exact_mod_cast hpos) h3
    omega

/-- Every slot below the start of thread `n` lies in the chunk of a thread
before `n`. -/
theorem omp_chunk_exists (total : Int) (nth : Nat) (x : Int) (hx : 0 ≤ x) :
    ∀ n : Nat, x < omp_start total nth n →
      ∃ t, t < n ∧ omp_start total nth t ≤ x ∧ x < omp_end total nth t := by
  intro n
  induction n with
  | zero =>
    intro h
    rw [omp_start_zero] at h
    omega
  | succ n ih =>
    intro h
    rcases lt_or_le x (omp_start total nth n) with hlt | hge
    · obtain ⟨t, ht, h1, h2⟩ := ih hlt
      exact ⟨t, by omega, h1, h2⟩
    · exact ⟨n, by omega, hge, by rw [omp_end_eq_start_succ]; exact h⟩

/-- While `nth * total` and `2 * total` fit a 64-bit `ptrdiff_t`, so does
every intermediate value of the two assignments of `prepare_omp_loop`:
there the integers of the embedding are the machine's. -/
theorem omp_no_overflow (total : Int) (nth t : Nat) (htotal : 0 ≤ total) (ht : t < nth)
    (h1 : (nth : Int) * total < 2 ^ 63) (h2 : 2 * total < 2 ^ 63) :
    (0 ≤ (t : Int) * total ∧ (t : Int) * total < 2 ^ 63) ∧
    (0 ≤ ((t : Int) + 1) * total ∧ ((t : Int) + 1) * total < 2 ^ 63) ∧
    (0 ≤ omp_start total nth t ∧ omp_start total nth t < 2 ^ 63) ∧
    (0 ≤ omp_end total nth t ∧ omp_end total nth t < 2 ^ 63) := by
  have hle : ((t : Int) + 1) * total ≤ (nth : Int) * total := by
    apply mul_le_mul_of_nonneg_right _ htotal
    exact_mod_cast ht
  have h0 : (0 : Int) ≤ (t : Int) * total := by positivity
  have hs0 : 0 ≤ omp_start total nth t := by
    have := omp_start_zero total nth
    have := omp_end_le_start total nth 0 t htotal
    rcases Nat.eq_zero_or_pos t with hz | hp
    · subst hz; omega
    · have h3 := omp_end_le_start total nth 0 t htotal hp
      have h4 := omp_start_le_end total nth 0 htotal
      omega
  have hse := omp_start_le_end total nth t htotal
  have hel : omp_end total nth t ≤ 2 * total := by
    rw [← omp_end_last total nth (by omega)]
    rcases Nat.lt_or_ge t (nth - 1) with hlt | hge
    · have h3 := omp_end_le_start total nth t (nth - 1) htotal hlt
      have h4 := omp_start_le_end total nth (nth - 1) htotal
      omega
    · have e : t = nth - 1 := by omega
      rw [e]
  refine ⟨⟨h0, by nlinarith⟩, ⟨by positivity, by omega⟩, ⟨hs0, by omega⟩, ⟨by omega, by omega⟩⟩

/-- Over the integers, every slot of `[0, 2 * total)` lies in the chunk of
exactly one thread. -/
theorem omp_chunks_partition (total : Int) (nth : Nat) (hn : 1 ≤ nth) (htotal : 0 ≤ total)
    (x : Int) (hx0 : 0 ≤ x) (hx1 : x < 2 * total) :
    ∃! t : Nat, t < nth ∧ omp_start total nth t ≤ x ∧ x < omp_end total nth t := by
  have hlast : x < omp_start total nth nth := by
    have := omp_end_eq_start_succ total nth (nth - 1)
    rw [omp_end_last _ _ hn, Nat.sub_add_cancel hn] at this
    omega
  obtain ⟨t, ht, h1, h2⟩ := omp_chunk_exists total nth x hx0 _ hlast
  refine ⟨t, ⟨ht, h1, h2⟩, ?_⟩
  rintro t' ⟨-, h1', h2'⟩
  rcases Nat.lt_trichotomy t' t with hlt | heq | hgt
  · have := omp_end_le_start total nth t' t htotal hlt
    omega
  · exact heq
  · have := omp_end_le_start total nth t t' htotal hgt
    omega

theorem ptrdiff_wrap_of_fits (x : Int) (h1 : -2 ^ 63 ≤ x) (h2 : x < 2 ^ 63) :
    ptrdiff_wrap x = x := by
  unfold ptrdiff_wrap
  norm_num at h1 h2 ⊢
  omega

/-- While `nth * total` and `2 * total` fit a 64-bit `ptrdiff_t`, the
machine values of `start` and `end` are those over the integers. -/
theorem omp_ptrdiff_eq (total : Int) (nth t : Nat) (htotal : 0 ≤ total) (ht : t < nth)
    (h1 : (nth : Int) * total < 2 ^ 63) (h2 : 2 * total < 2 ^ 63) :
    omp_start_ptrdiff total nth t = omp_start total nth t ∧
    omp_end_ptrdiff total nth t = omp_end total nth t := by
  obtain ⟨⟨a1, a2⟩, ⟨b1, b2⟩, ⟨c1, c2⟩, ⟨d1, d2⟩⟩ := omp_no_overflow total nth t htotal ht h1 h2
  have hneg : -(2 : Int) ^ 63 ≤ 0 := by norm_num
  constructor
  · unfold omp_start_ptrdiff
    rw [ptrdiff_wrap_of_fits _ (le_trans hneg a1) a2]
    exact ptrdiff_wrap_of_fits _ (le_trans hneg c1) c2
  · unfold omp_end_ptrdiff
    rw [ptrdiff_wrap_of_fits _ (le_trans hneg b1) b2]
    exact ptrdiff_wrap_of_fits _ (le_trans hneg d1) d2

/-- C11 as stated fails in the arithmetic of the code: with
`total = 2^62` and four threads the products `ith * total` leave the range
of `ptrdiff_t`. The chunks come out as `[0, 2^61)`, `[2^61, -2^62)`,
`[-2^62, -2^61)` and `[-2^61, 0)`: the last end is `0`, not `2 * total`,
thread `1` has `start > end`, and the slot `2^61` of `[0, 2 * total)` lies
in no chunk. With `total = 2^61` and eight threads, where `2 * total` itself
fits, thread `3` gets `[3 * 2^59, -2^61)` and the last end is again `0`. -/
theorem prepare_omp_loop_partition_counterexample :
    (0 : Int) ≤ 2 ^ 62 ∧ (2 : Int) ^ 62 < 2 ^ 63 ∧
    omp_start_ptrdiff (2 ^ 62) 4 0 = 0 ∧
    omp_end_ptrdiff (2 ^ 62) 4 0 = 2 ^ 61 ∧
    omp_start_ptrdiff (2 ^ 62) 4 1 = 2 ^ 61 ∧
    omp_end_ptrdiff (2 ^ 62) 4 1 = -2 ^ 62 ∧
    omp_start_ptrdiff (2 ^ 62) 4 2 = -2 ^ 62 ∧
    omp_end_ptrdiff (2 ^ 62) 4 2 = -2 ^ 61 ∧
    omp_start_ptrdiff (2 ^ 62) 4 3 = -2 ^ 61 ∧
    omp_end_ptrdiff (2 ^ 62) 4 3 = 0 ∧
    omp_end_ptrdiff (2 ^ 62) 4 (4 - 1) ≠ 2 * 2 ^ 62 ∧
    ¬ (omp_start_ptrdiff (2 ^ 62) 4 1 ≤ omp_end_ptrdiff (2 ^ 62) 4 1) ∧
    ((0 : Int) ≤ 2 ^ 61 ∧ (2 : Int) ^ 61 < 2 * 2 ^ 62 ∧
      ∀ t : Fin 4, ¬ (omp_start_ptrdiff (2 ^ 62) 4 t ≤ 2 ^ 61
        ∧ 2 ^ 61 < omp_end_ptrdiff (2 ^ 62) 4 t)) ∧
    ((2 : Int) * 2 ^ 61 < 2 ^ 63 ∧
      omp_start_ptrdiff (2 ^ 61) 8 3 = 3 * 2 ^ 59 ∧
      omp_end_ptrdiff (2 ^ 61) 8 3 = -2 ^ 61 ∧
      omp_end_ptrdiff (2 ^ 61) 8 (8 - 1) = 0 ∧
      omp_end_ptrdiff (2 ^ 61) 8 (8 - 1) ≠ 2 * 2 ^ 61) := by
  decide

/-- C11, amended: for `nth ≥ 1` threads and `total ≥ 0` local elements with
`nth * total < 2^63` and `2 * total < 2^63` (no product leaves
`ptrdiff_t`), the ranges `[start_t, end_t)` that `prepare_omp_loop`
computes, `start_t = t * total / nth * 2` and `end_t = (t + 1) * total /
nth * 2`, are a contiguous non-overlapping partition of `[0, 2 * total)`:
`start_0 = 0`, `end_{nth-1} = 2 * total`, `end_t = start_{t+1}`,
`start_t ≤ end_t`, all of them even, and every slot of `[0, 2 * total)`
lies in the chunk of exactly one thread. The values in machine arithmetic
are those that `prepare_omp_loop` returns here. -/
theorem prepare_omp_loop_partition {K : Type} (pm : PM K) (env : Env K)
    (hn : 1 ≤ env.num_threads) (htotal : 0 ≤ pm.ORegion_total)
    (hprod : (env.num_threads : Int) * pm.ORegion_total < 2 ^ 63)
    (htwice : 2 * pm.ORegion_total < 2 ^ 63) :
    (∀ t : Nat, t < env.num_threads →
      (prepare_omp_loop pm env t).1 = omp_start_ptrdiff pm.ORegion_total env.num_threads t ∧
      (prepare_omp_loop pm env t).2.1 = omp_end_ptrdiff pm.ORegion_total env.num_threads t) ∧
    omp_start_ptrdiff pm.ORegion_total env.num_threads 0 = 0 ∧
    omp_end_ptrdiff pm.ORegion_total env.num_threads (env.num_threads - 1)
      = 2 * pm.ORegion_total ∧
    (∀ t : Nat, t + 1 < env.num_threads →
      omp_end_ptrdiff pm.ORegion_total env.num_threads t
        = omp_start_ptrdiff pm.ORegion_total env.num_threads (t + 1)) ∧
    (∀ t : Nat, t < env.num_threads →
      omp_start_ptrdiff pm.ORegion_total env.num_threads t
        ≤ omp_end_ptrdiff pm.ORegion_total env.num_threads t) ∧
    (∀ t : Nat, t < env.num_threads →
      2 ∣ omp_start_ptrdiff pm.ORegion_total env.num_threads t ∧
      2 ∣ omp_end_ptrdiff pm.ORegion_total env.num_threads t) ∧
    (∀ x : Int, 0 ≤ x → x < 2 * pm.ORegion_total →
      ∃! t : Nat, t < env.num_threads ∧
        omp_start_ptrdiff pm.ORegion_total env.num_threads t ≤ x ∧
        x < omp_end_ptrdiff pm.ORegion_total env.num_threads t) := by
  have heq : ∀ t, t < env.num_threads →
      omp_start_ptrdiff pm.ORegion_total env.num_threads t
        = omp_start pm.ORegion_total env.num_threads t ∧
      omp_end_ptrdiff pm.ORegion_total env.num_threads t
        = omp_end pm.ORegion_total env.num_threads t :=
    fun t ht => omp_ptrdiff_eq _ _ t htotal ht hprod htwice
  refine ⟨?_, ?_, ?_, ?_, ?_, ?_, ?_⟩
  · intro t ht
    exact ⟨(heq t ht).1.symm, (heq t ht).2.symm⟩
  · rw [(heq 0 (by omega)).1]
    exact omp_start_zero _ _
  · rw [(heq (env.num_threads - 1) (by omega)).2]
    exact omp_end_last _ _ hn
  · intro t ht
    rw [(heq t (by omega)).2, (heq (t + 1) ht).1]
    exact omp_end_eq_start_succ _ _ t
  · intro t ht
    rw [(heq t ht).1, (heq t ht).2]
    exact omp_start_le_end _ _ t htotal
  · intro t ht
    rw [(heq t ht).1, (heq t ht).2]
    exact ⟨Dvd.intro_left _ rfl, Dvd.intro_left _ rfl⟩
  · intro x hx0 hx1
    obtain ⟨t, ⟨ht, h1, h2⟩, huniq⟩ :=
      omp_chunks_partition pm.ORegion_total env.num_threads hn htotal x hx0 hx1
    refine ⟨t, ⟨ht, by rw [(heq t ht).1]; exact h1, by rw [(heq t ht).2]; exact h2⟩, ?_⟩
    rintro t' ⟨ht', h1', h2'⟩
    apply huniq
    rw [(heq t' ht').1] at h1'
    rw [(heq t' ht').2] at h2'
    exact ⟨ht', h1', h2'⟩

/-- Five modes on two threads, for the amended C11: the chunks are `[0, 4)`
and `[4, 10)`, in machine arithmetic and as `prepare_omp_loop` returns
them. -/
theorem prepare_omp_loop_partition_witness :
    omp_start_ptrdiff 5 2 0 = 0 ∧
    omp_end_ptrdiff 5 2 0 = 4 ∧
    omp_start_ptrdiff 5 2 1 = 4 ∧
    omp_end_ptrdiff 5 2 1 = 10 ∧
    (prepare_omp_loop pmFive (envExample 2) 0).1 = 0 ∧
    (prepare_omp_loop pmFive (envExample 2) 0).2.1 = 4 ∧
    (prepare_omp_loop pmFive (envExample 2) 1).1 = 4 ∧
    (prepare_omp_loop pmFive (envExample 2) 1).2.1 = 10 ∧
    (∀ x : Int, 0 ≤ x → x < 10 →
      ∃! t : Nat, t < 2 ∧ omp_start_ptrdiff 5 2 t ≤ x ∧ x < omp_end_ptrdiff 5 2 t) := by
  obtain ⟨h0, h1, h2, -, -, -, h6⟩ :=
    prepare_omp_loop_partition pmFive (envExample 2) (by decide) (by decide) (by decide)
      (by decide)
  have e0 := h0 0 (by decide)
  have e1 := h0 1 (by decide)
  refine ⟨h1, by decide, by decide, h2, ?_, ?_, ?_, ?_, fun x hx0 hx1 => h6 x hx0 hx1⟩
  · rw [e0.1]; exact h1
  · rw [e0.2]; decide
  · rw [e1.1]; decide
  · rw [e1.2]; exact h2

/-! ### Locations written by the threads -/

/-- The passes of a loop start at `ind`, stay below `end_` and advance in
steps of two. -/
theorem omp_modes_mem (inc : (Fin 3 → Int) → Fin 3 → Int) (end_ : Int) :
    ∀ (ind : Int) (i : Fin 3 → Int) (m : Int × (Fin 3 → Int)), m ∈ omp_modes inc end_ ind i →
      ind ≤ m.1 ∧ m.1 < end_ ∧ 2 ∣ (m.1 - ind) := by
  intro ind i
  induction ind, i using omp_modes.induct inc end_ with
  | case1 ind i h ih =>
    intro m hm
    rw [omp_modes, if_pos h, List.mem_cons] at hm
    rcases hm with rfl | hm
    · exact ⟨le_refl _, h, by simp⟩
    · obtain ⟨h1, h2, h3⟩ := ih m hm
      exact ⟨by omega, h2, by omega⟩
  | case2 ind i h =>
    intro m hm
    rw [omp_modes, if_neg h] at hm
    simp at hm

/-- In `apply_force_kernel` and `smooth_density` a thread writes workspace
slots of its own chunk `[start, end)` only. -/
theorem workspace_thread_writes_in_chunk {K : Type} (pm : PM K) (env : Env K) (ith : Nat)
    (x : Int) (hx : x ∈ omp_thread_writes pm env (fun ind _ => workspace_writes ind) ith) :
    omp_start pm.ORegion_total env.num_threads ith ≤ x ∧
    x < omp_end pm.ORegion_total env.num_threads ith := by
  unfold omp_thread_writes omp_thread_modes at hx
  rw [List.mem_flatMap] at hx
  obtain ⟨m, hm, hxm⟩ := hx
  have hmem := omp_modes_mem _ _ _ _ m hm
  simp only [prepare_omp_loop] at hmem
  have hsv : omp_start pm.ORegion_total env.num_threads ith
      = Int.tdiv ((ith : Int) * pm.ORegion_total) (env.num_threads : Int) * 2 := rfl
  have hev : omp_end pm.ORegion_total env.num_threads ith
      = Int.tdiv (((ith : Int) + 1) * pm.ORegion_total) (env.num_threads : Int) * 2 := rfl
  simp only [workspace_writes, List.mem_cons, List.mem_singleton, List.not_mem_nil,
    or_false] at hxm
  rcases hxm with rfl | rfl <;> omega

/-- In `apply_force_kernel` and `smooth_density` no workspace slot is
written by two threads. -/
theorem workspace_thread_writes_disjoint {K : Type} (pm : PM K) (env : Env K)
    (htotal : 0 ≤ pm.ORegion_total) (t t' : Nat) (hne : t ≠ t') (x : Int)
    (hx : x ∈ omp_thread_writes pm env (fun ind _ => workspace_writes ind) t) :
    x ∉ omp_thread_writes pm env (fun ind _ => workspace_writes ind) t' := by
  intro hx'
  have h1 := workspace_thread_writes_in_chunk pm env t x hx
  have h2 := workspace_thread_writes_in_chunk pm env t' x hx'
  rcases Nat.lt_or_gt_of_ne hne with hlt | hgt
  · have := omp_end_le_start pm.ORegion_total env.num_threads t t' htotal hlt
    omega
  · have := omp_end_le_start pm.ORegion_total env.num_threads t' t htotal hgt
    omega

/-- A pass of `apply_force_kernel` changes the workspace at the slots of
`workspace_writes` only. -/
theorem apply_force_kernel_body_frame {K : Type} [LinearOrderedField K]
    (fac : Fin 3 → Int → KFactors K) (pm : PM K) (dir : Fin 3) (ind : Int) (i : Fin 3 → Int)
    (s : ForceState K) (x : Int) (hx : x ∉ workspace_writes ind) :
    (apply_force_kernel_body fac pm dir ind i s).workspace x = s.workspace x := by
  simp only [workspace_writes, List.mem_cons, List.mem_singleton, List.not_mem_nil, or_false,
    add_zero, not_or] at hx
  rw [apply_force_kernel_body_workspace, if_neg hx.2, if_neg hx.1]

/-- A pass of `smooth_density` changes the workspace at the slots of
`workspace_writes` only. -/
theorem smooth_density_body_frame {K : Type} [LinearOrderedField K]
    (fac : Fin 3 → Int → KFactors K) (pm : PM K) (ind : Int) (i : Fin 3 → Int)
    (s : Int → K) (x : Int) (hx : x ∉ workspace_writes ind) :
    smooth_density_body fac pm ind i s x = s x := by
  simp only [workspace_writes, List.mem_cons, List.mem_singleton, List.not_mem_nil, or_false,
    add_zero, not_or] at hx
  rw [smooth_density_body_workspace, if_neg hx.2, if_neg hx.1]

/-- A pass of `calculate_powerspectrum` changes `N`, `p` and `k` at the
entries of `ps_writes` only. -/
theorem calculate_powerspectrum_body_frame (fac : Fin 3 → Int → KFactors ℝ) (pm : PM ℝ)
    (k0 : ℝ) (size : Nat) (ind : Int) (i : Fin 3 → Int) (ps : PowerSpectrum ℝ) (b : Int)
    (hb : b ∉ ps_writes fac pm k0 size i) :
    (calculate_powerspectrum_body fac pm k0 size ind i ps).N b = ps.N b ∧
    (calculate_powerspectrum_body fac pm k0 size ind i ps).p b = ps.p b ∧
    (calculate_powerspectrum_body fac pm k0 size ind i ps).k b = ps.k b := by
  have hnot : ¬ (ps_bin fac pm k0 i = b ∧ 0 ≤ ps_bin fac pm k0 i
      ∧ ps_bin fac pm k0 i < (size : Int)) := by
    rintro ⟨h1, h2, h3⟩
    apply hb
    unfold ps_writes
    rw [if_pos ⟨h2, h3⟩, h1]
    exact List.mem_singleton.mpr rfl
  rw [calculate_powerspectrum_body_N, calculate_powerspectrum_body_p,
    calculate_powerspectrum_body_k, if_neg hnot, if_neg hnot, if_neg hnot]
  simp

theorem pmPair_modes :
    omp_thread_modes pmPair (envExample 2) 0 = [(0, pmPair.pm_unravel_o_index 0)] ∧
    omp_thread_modes pmPair (envExample 2) 1 = [(2, pmPair.pm_unravel_o_index 1)] := by
  have hs0 : omp_start pmPair.ORegion_total (envExample (K := ℝ) 2).num_threads 0 = 0 := by
    decide
  have he0 : omp_end pmPair.ORegion_total (envExample (K := ℝ) 2).num_threads 0 = 2 := by
    decide
  have hs1 : omp_start pmPair.ORegion_total (envExample (K := ℝ) 2).num_threads 1 = 2 := by
    decide
  have he1 : omp_end pmPair.ORegion_total (envExample (K := ℝ) 2).num_threads 1 = 4 := by
    decide
  constructor
  · simp only [omp_thread_modes, prepare_omp_loop]
    rw [hs0, he0, if_pos (by decide : (2 : Int) > 0), omp_modes,
      if_pos (by decide : (0 : Int) < 2), omp_modes, if_neg (by decide)]
    rfl
  · simp only [omp_thread_modes, prepare_omp_loop]
    rw [hs1, he1, if_pos (by decide : (4 : Int) > 2), omp_modes,
      if_pos (by decide : (2 : Int) < 4), omp_modes, if_neg (by decide)]
    rfl

theorem pmPair_bins :
    ps_bin (create_k_factors (envExample 2) pmPair) pmPair (ps_k0 pmPair)
      (pmPair.pm_unravel_o_index 0) = 1 ∧
    ps_bin (create_k_factors (envExample 2) pmPair) pmPair (ps_k0 pmPair)
      (pmPair.pm_unravel_o_index 1) = 1 := by
  have hk0 : ps_k0 pmPair = 1 := by
    unfold ps_k0
    simp only [pmPair]
    exact div_self (by positivity)
  have hkk0 : kk_total (create_k_factors (envExample 2) pmPair) pmPair
      (pmPair.pm_unravel_o_index 0) = 1 := by
    simp [kk_total, create_k_factors, pmPair]
  have hkk1 : kk_total (create_k_factors (envExample 2) pmPair) pmPair
      (pmPair.pm_unravel_o_index 1) = 2 := by
    simp [kk_total, create_k_factors, pmPair]
    norm_num
  constructor
  · unfold ps_bin ps_k
    rw [hkk0, hk0, Real.sqrt_one, div_one]
    exact Int.floor_one
  · unfold ps_bin ps_k
    rw [hkk1, hk0, div_one, Int.floor_eq_iff]
    constructor
    · rw [Int.cast_one, Real.le_sqrt (by norm_num)] <;> norm_num
    · rw [Int.cast_one, Real.sqrt_lt' (by norm_num)]
      norm_num

/-- C12 (the code departs from the claim in `calculate_powerspectrum`): on a
rank with two threads whose two modes, of global index `(1, 0, 0)` and
`(1, 1, 0)`, both fall in bin `1`, thread `0` and thread `1` each update
`N[1]`, `p[1]` and `k[1]`: the blocks of both threads, run alone from the
zeroed arrays, leave `N[1] = 1`. Their workspace slots in the two kernels,
`[0, 1]` and `[2, 3]`, are apart. -/
theorem calculate_powerspectrum_threads_share_bin :
    ps_thread_writes pmPair (envExample 2) 2 0 = [1] ∧
    ps_thread_writes pmPair (envExample 2) 2 1 = [1] ∧
    (omp_thread pmPair (envExample 2)
      (calculate_powerspectrum_body (create_k_factors (envExample 2) pmPair) pmPair
        (ps_k0 pmPair) 2) ⟨fun _ => 0, fun _ => 0, fun _ => 0⟩ 0).N 1 = 1 ∧
    (omp_thread pmPair (envExample 2)
      (calculate_powerspectrum_body (create_k_factors (envExample 2) pmPair) pmPair
        (ps_k0 pmPair) 2) ⟨fun _ => 0, fun _ => 0, fun _ => 0⟩ 1).N 1 = 1 ∧
    (calculate_powerspectrum_local pmPair (envExample 2) 2).N 1 = 2 ∧
    omp_thread_writes pmPair (envExample 2) (fun ind _ => workspace_writes ind) 0 = [0, 1] ∧
    omp_thread_writes pmPair (envExample 2) (fun ind _ => workspace_writes ind) 1 = [2, 3] := by
  obtain ⟨hm0, hm1⟩ := pmPair_modes
  obtain ⟨hb0, hb1⟩ := pmPair_bins
  have hN : ∀ t, (omp_thread pmPair (envExample 2)
      (calculate_powerspectrum_body (create_k_factors (envExample 2) pmPair) pmPair
        (ps_k0 pmPair) 2) ⟨fun _ => 0, fun _ => 0, fun _ => 0⟩ t).N 1
      = ((omp_thread_modes pmPair (envExample 2) t).map fun m =>
          if ps_bin (create_k_factors (envExample 2) pmPair) pmPair (ps_k0 pmPair) m.2 = 1
              ∧ 0 ≤ ps_bin (create_k_factors (envExample 2) pmPair) pmPair (ps_k0 pmPair) m.2
              ∧ ps_bin (create_k_factors (envExample 2) pmPair) pmPair (ps_k0 pmPair) m.2
                < ((2 : Nat) : Int)
            then (ps_w m.2 : ℝ) else 0).sum := by
    intro t
    unfold omp_thread omp_thread_modes
    rw [omp_for_sum (fun s : PowerSpectrum ℝ => s.N 1) _ _ _
      (fun _ i => if ps_bin (create_k_factors (envExample 2) pmPair) pmPair (ps_k0 pmPair) i = 1
              ∧ 0 ≤ ps_bin (create_k_factors (envExample 2) pmPair) pmPair (ps_k0 pmPair) i
              ∧ ps_bin (create_k_factors (envExample 2) pmPair) pmPair (ps_k0 pmPair) i
                < ((2 : Nat) : Int)
            then (ps_w i : ℝ) else 0)
      (fun ind i s => calculate_powerspectrum_body_N _ pmPair _ 2 ind i s 1)]
    simp
  have hw0 : ps_w (pmPair.pm_unravel_o_index 0) = 1 := by simp [ps_w, pmPair]
  have hw1 : ps_w (pmPair.pm_unravel_o_index 1) = 1 := by simp [ps_w, pmPair]
  refine ⟨?_, ?_, ?_, ?_, ?_, ?_, ?_⟩
  · simp [ps_thread_writes, omp_thread_writes, hm0, ps_writes, hb0]
  · simp [ps_thread_writes, omp_thread_writes, hm1, ps_writes, hb1]
  · rw [hN 0, hm0]
    simp [hb0, hw0]
  · rw [hN 1, hm1]
    simp [hb1, hw1]
  · rw [calculate_powerspectrum_local_N]
    have hr : List.range (envExample (K := ℝ) 2).num_threads = [0, 1] := by decide
    unfold omp_parallel_modes
    rw [hr]
    simp only [List.flatMap_cons, List.flatMap_nil, List.append_nil, hm0, hm1]
    simp [hb0, hb1, hw0, hw1]
    norm_num
  · simp [omp_thread_writes, hm0, workspace_writes]
  · simp [omp_thread_writes, hm1, workspace_writes]

/-! ### The empty local region -/

theorem omp_start_empty (nth t : Nat) : omp_start 0 nth t = 0 := by
  unfold omp_start
  simp

theorem omp_end_empty (nth t : Nat) : omp_end 0 nth t = 0 := by
  unfold omp_end
  simp

/-- With `ORegion.total == 0` the block of a thread leaves the state as it
was. -/
theorem omp_thread_empty {K σ : Type} (pm : PM K) (env : Env K)
    (body : Int → (Fin 3 → Int) → σ → σ) (htotal : pm.ORegion_total = 0) (s : σ) (ith : Nat) :
    omp_thread pm env body s ith = s := by
  unfold omp_thread
  simp only [prepare_omp_loop, htotal, omp_start_empty, omp_end_empty]
  rw [omp_for, if_neg (lt_irrefl 0)]

/-- With `ORegion.total == 0` the parallel region leaves the state as it
was. -/
theorem omp_parallel_empty {K σ : Type} (pm : PM K) (env : Env K)
    (body : Int → (Fin 3 → Int) → σ → σ) (htotal : pm.ORegion_total = 0) (s : σ) :
    omp_parallel pm env body s = s := by
  unfold omp_parallel
  generalize List.range env.num_threads = l
  induction l with
  | nil => rfl
  | cons t l ih => rw [List.foldl_cons, omp_thread_empty pm env body htotal, ih]

theorem omp_thread_modes_empty {K : Type} (pm : PM K) (env : Env K)
    (htotal : pm.ORegion_total = 0) (ith : Nat) : omp_thread_modes pm env ith = [] := by
  unfold omp_thread_modes
  simp only [prepare_omp_loop, htotal, omp_start_empty, omp_end_empty]
  rw [omp_modes, if_neg (lt_irrefl 0)]

/-! ### The parallel region of the power spectrum under a schedule -/

/-- A pass of the loop of `calculate_powerspectrum` is its three `+=`
statements carried out one after the other. -/
theorem calculate_powerspectrum_body_updates (fac : Fin 3 → Int → KFactors ℝ) (pm : PM ℝ)
    (k0 : ℝ) (size : Nat) (ind : Int) (i : Fin 3 → Int) (ps : PowerSpectrum ℝ) :
    calculate_powerspectrum_body fac pm k0 size ind i ps
      = (calculate_powerspectrum_updates fac pm k0 size ind i).foldl ps_apply ps := by
  unfold calculate_powerspectrum_body calculate_powerspectrum_updates
  by_cases hr : ps_bin fac pm k0 i ≥ 0 ∧ ps_bin fac pm k0 i < (size : Int)
  · simp only [if_pos hr]
    rfl
  · simp only [if_neg hr]
    rfl

/-- A loop whose pass is a list of statements is the list of all its
statements, carried out in order. -/
theorem omp_for_foldl {σ U : Type} (inc : (Fin 3 → Int) → Fin 3 → Int)
    (body : Int → (Fin 3 → Int) → σ → σ) (end_ : Int) (app : σ → U → σ)
    (upd : Int → (Fin 3 → Int) → List U)
    (hbody : ∀ ind i s, body ind i s = (upd ind i).foldl app s) :
    ∀ ind i s, omp_for inc body end_ ind i s
      = ((omp_modes inc end_ ind i).flatMap fun m => upd m.1 m.2).foldl app s := by
  intro ind i s
  induction ind, i, s using omp_for.induct inc body end_ with
  | case1 ind i s h ih =>
    rw [omp_for, if_pos h, omp_modes, if_pos h, ih, hbody, List.flatMap_cons, List.foldl_append]
  | case2 ind i s h =>
    rw [omp_for, if_neg h, omp_modes, if_neg h]
    rfl

/-- The block of a thread of `calculate_powerspectrum`, run without
interruption, is its program carried out statement by statement. -/
theorem calculate_powerspectrum_thread_program (pm : PM ℝ) (env : Env ℝ) (size : Nat)
    (ps : PowerSpectrum ℝ) (ith : Nat) :
    omp_thread pm env
        (calculate_powerspectrum_body (create_k_factors env pm) pm (ps_k0 pm) size) ps ith
      = (calculate_powerspectrum_program pm env size ith).foldl ps_apply ps := by
  unfold omp_thread calculate_powerspectrum_program omp_thread_modes
  exact omp_for_foldl _ _ _ ps_apply
    (fun ind i => calculate_powerspectrum_updates (create_k_factors env pm) pm (ps_k0 pm)
      size ind i)
    (fun ind i s => calculate_powerspectrum_body_updates _ pm _ size ind i s) _ _ _

/-- A thread that moves twice for each of its statements, with no other
thread in between, carries its statements out in one piece each. -/
theorem ps_step_alone (t : Nat) :
    ∀ (us : List PSUpdate) (s : PSRegion), s.threads t = ⟨us, none⟩ →
      (List.replicate (2 * us.length) t).foldl ps_step s
        = ⟨us.foldl ps_apply s.ps, Function.update s.threads t ⟨[], none⟩⟩ := by
  intro us
  induction us with
  | nil =>
    intro s hs
    simp only [List.length_nil, Nat.mul_zero, List.replicate_zero, List.foldl_nil]
    rw [← hs, Function.update_eq_self]
  | cons u rest ih =>
    intro s hs
    have e : 2 * (u :: rest).length = (2 * rest.length) + 1 + 1 := by
      simp only [List.length_cons]; omega
    rw [e, List.replicate_succ, List.replicate_succ, List.foldl_cons, List.foldl_cons]
    have h1 : ps_step s t
        = ⟨s.ps, Function.update s.threads t ⟨u :: rest, some (ps_read s.ps u.arr u.bin)⟩⟩ := by
      unfold ps_step
      rw [hs]
    have h2 : ps_step (ps_step s t) t
        = ⟨ps_apply s.ps u, Function.update s.threads t ⟨rest, none⟩⟩ := by
      rw [h1]
      unfold ps_step
      simp only [Function.update_same, Function.update_idem]
      rfl
    rw [h2, ih _ (by simp only [Function.update_same])]
    simp only [Function.update_idem, List.foldl_cons]

/-- The threads of a list without repetition, each running its whole block
before the next one starts. -/
theorem ps_step_serial (prog : Nat → List PSUpdate) :
    ∀ (l : List Nat) (s : PSRegion), l.Nodup → (∀ t ∈ l, s.threads t = ⟨prog t, none⟩) →
      ((l.flatMap fun t => List.replicate (2 * (prog t).length) t).foldl ps_step s).ps
          = l.foldl (fun ps t => (prog t).foldl ps_apply ps) s.ps ∧
      (∀ t, ((l.flatMap fun t => List.replicate (2 * (prog t).length) t).foldl ps_step s).threads t
          = if t ∈ l then ⟨[], none⟩ else s.threads t) := by
  intro l
  induction l with
  | nil =>
    intro s _ _
    exact ⟨rfl, fun t => by simp⟩
  | cons a l ih =>
    intro s hnd hs
    rw [List.nodup_cons] at hnd
    rw [List.flatMap_cons, List.foldl_append,
      ps_step_alone a (prog a) s (hs a (List.mem_cons_self _ _))]
    have hrest : ∀ t ∈ l,
        (Function.update s.threads a (⟨[], none⟩ : PSThread)) t = ⟨prog t, none⟩ := by
      intro t ht
      have hne : t ≠ a := fun h => hnd.1 (h ▸ ht)
      rw [Function.update_noteq hne]
      exact hs t (List.mem_cons_of_mem _ ht)
    obtain ⟨h1, h2⟩ := ih ⟨(prog a).foldl ps_apply s.ps,
      Function.update s.threads a ⟨[], none⟩⟩ hnd.2 hrest
    refine ⟨?_, ?_⟩
    · rw [h1, List.foldl_cons]
    · intro t
      rw [h2 t]
      by_cases hta : t = a
      · subst hta
        simp only [Function.update_same, List.mem_cons, true_or, if_true, ite_self]
      · by_cases htl : t ∈ l
        · simp only [htl, if_true, List.mem_cons, or_true]
        · simp only [htl, if_false, List.mem_cons, hta, false_or, Function.update_noteq hta]

/-- Under the serial schedule the parallel region of `calculate_powerspectrum`
ends with every thread finished and with the arrays of
`calculate_powerspectrum_local`: that definition is the run in which the
blocks of the threads do not interleave. -/
theorem calculate_powerspectrum_threads_serial (pm : PM ℝ) (env : Env ℝ) (size : Nat) :
    (calculate_powerspectrum_threads pm env size (ps_serial_schedule pm env size)).ps
      = calculate_powerspectrum_local pm env size ∧
    ps_finished (calculate_powerspectrum_threads pm env size (ps_serial_schedule pm env size)) := by
  have hstart : ∀ t ∈ List.range env.num_threads,
      (calculate_powerspectrum_enter pm env size).threads t
        = ⟨calculate_powerspectrum_program pm env size t, none⟩ := by
    intro t ht
    rw [List.mem_range] at ht
    simp only [calculate_powerspectrum_enter, if_pos ht]
  obtain ⟨h1, h2⟩ := ps_step_serial (calculate_powerspectrum_program pm env size)
    (List.range env.num_threads) (calculate_powerspectrum_enter pm env size)
    (List.nodup_range _) hstart
  constructor
  · unfold calculate_powerspectrum_threads ps_serial_schedule
    rw [h1]
    unfold calculate_powerspectrum_local omp_parallel
    have : (fun ps t => (calculate_powerspectrum_program pm env size t).foldl ps_apply ps)
        = omp_thread pm env
            (calculate_powerspectrum_body (create_k_factors env pm) pm (ps_k0 pm) size) := by
      funext ps t
      exact (calculate_powerspectrum_thread_program pm env size ps t).symm
    rw [this]
    rfl
  · intro t
    unfold calculate_powerspectrum_threads ps_serial_schedule
    rw [h2 t]
    by_cases ht : t ∈ List.range env.num_threads
    · rw [if_pos ht]
    · rw [if_neg ht]
      rw [List.mem_range] at ht
      simp only [calculate_powerspectrum_enter, if_neg ht]

/-- The function `calculate_powerspectrum` of the embedding is the run in
which every rank takes the serial schedule. -/
theorem calculate_powerspectrum_eq_scheduled (comm : List (PM ℝ × Env ℝ)) (pm : PM ℝ)
    (size : Nat) (density_factor : ℝ) :
    calculate_powerspectrum comm pm size density_factor
      = calculate_powerspectrum_scheduled
          (comm.map fun r => (r.1, r.2, ps_serial_schedule r.1 r.2 size)) pm size
          density_factor := by
  unfold calculate_powerspectrum calculate_powerspectrum_scheduled calculate_powerspectrum_finish
    calculate_powerspectrum_reduced
  simp only [List.map_map, Function.comp_def, (calculate_powerspectrum_threads_serial _ _ size).1]

/-- A region in which no thread has a statement left does not change. -/
theorem ps_step_finished (s : PSRegion) (hs : ps_finished s) (sched : List Nat) :
    sched.foldl ps_step s = s := by
  induction sched with
  | nil => rfl
  | cons t sched ih =>
    rw [List.foldl_cons]
    have : ps_step s t = s := by
      unfold ps_step
      rw [hs t]
    rw [this, ih]

/-- With `ORegion.total == 0` no thread has a statement, and under every
schedule the arrays stay as the `memset`s left them. -/
theorem calculate_powerspectrum_threads_empty (pm : PM ℝ) (env : Env ℝ) (size : Nat)
    (htotal : pm.ORegion_total = 0) (sched : List Nat) :
    (calculate_powerspectrum_threads pm env size sched).ps
      = ⟨fun _ => 0, fun _ => 0, fun _ => 0⟩ := by
  have hfin : ps_finished (calculate_powerspectrum_enter pm env size) := by
    intro t
    simp only [calculate_powerspectrum_enter]
    split_ifs
    · simp only [calculate_powerspectrum_program, omp_thread_modes_empty pm env htotal t]
      rfl
    · rfl
  unfold calculate_powerspectrum_threads
  rw [ps_step_finished _ hfin]
  rfl

/-! ### Lost updates in the parallel region of the power spectrum -/

theorem pmPair_kk :
    kk_total (create_k_factors (envExample 2) pmPair) pmPair (pmPair.pm_unravel_o_index 0) = 1 ∧
    kk_total (create_k_factors (envExample 2) pmPair) pmPair (pmPair.pm_unravel_o_index 1) = 2 := by
  constructor
  · simp [kk_total, create_k_factors, pmPair]
  · simp [kk_total, create_k_factors, pmPair]
    norm_num

/-- The statements of the two threads on the rank `pmPair`: each adds to
entry `1` of `N`, `p` and `k`. -/
theorem pmPair_program :
    calculate_powerspectrum_program pmPair (envExample 2) 2 0
      = [⟨PSArray.N, 1, 1⟩, ⟨PSArray.p, 1, 2⟩, ⟨PSArray.k, 1, 1⟩] ∧
    calculate_powerspectrum_program pmPair (envExample 2) 2 1
      = [⟨PSArray.N, 1, 1⟩, ⟨PSArray.p, 1, 2⟩, ⟨PSArray.k, 1, Real.sqrt 2⟩] := by
  obtain ⟨hm0, hm1⟩ := pmPair_modes
  obtain ⟨hb0, hb1⟩ := pmPair_bins
  obtain ⟨hk0, hk1⟩ := pmPair_kk
  have hw0 : ps_w (pmPair.pm_unravel_o_index 0) = 1 := by simp [ps_w, pmPair]
  have hw1 : ps_w (pmPair.pm_unravel_o_index 1) = 1 := by simp [ps_w, pmPair]
  have hv : ∀ ind, ps_value pmPair ind = 2 := by
    intro ind
    simp [ps_value, pmPair]
    norm_num
  constructor
  · simp [calculate_powerspectrum_program, hm0, calculate_powerspectrum_updates, hb0, hw0, hv,
      ps_k, hk0]
  · simp [calculate_powerspectrum_program, hm1, calculate_powerspectrum_updates, hb1, hw1, hv,
      ps_k, hk1]

/-- The rank `pmPairUnit` has the modes, wavenumbers and bins of `pmPair`;
its two amplitudes have `real² + imag² = 1`. -/
theorem pmPairUnit_program :
    ps_value pmPairUnit 0 = 1 ∧ ps_value pmPairUnit 2 = 1 ∧
    calculate_powerspectrum_program pmPairUnit (envExample 2) 2 0
      = [⟨PSArray.N, 1, 1⟩, ⟨PSArray.p, 1, 1⟩, ⟨PSArray.k, 1, 1⟩] ∧
    calculate_powerspectrum_program pmPairUnit (envExample 2) 2 1
      = [⟨PSArray.N, 1, 1⟩, ⟨PSArray.p, 1, 1⟩, ⟨PSArray.k, 1, Real.sqrt 2⟩] := by
  obtain ⟨hm0, hm1⟩ := pmPair_modes
  obtain ⟨hb0, hb1⟩ := pmPair_bins
  obtain ⟨hk0, hk1⟩ := pmPair_kk
  have hw0 : ps_w (pmPair.pm_unravel_o_index 0) = 1 := by simp [ps_w, pmPair]
  have hw1 : ps_w (pmPair.pm_unravel_o_index 1) = 1 := by simp [ps_w, pmPair]
  have hv0 : ps_value pmPairUnit 0 = 1 := by
    simp [ps_value, pmPairUnit]
    norm_num
  have hv2 : ps_value pmPairUnit 2 = 1 := by
    simp [ps_value, pmPairUnit]
    norm_num
  have hmodes : ∀ t, omp_thread_modes pmPairUnit (envExample 2) t
      = omp_thread_modes pmPair (envExample 2) t := fun _ => rfl
  have hfac : create_k_factors (envExample 2) pmPairUnit
      = create_k_factors (envExample 2) pmPair := rfl
  have hbin : ∀ i, ps_bin (create_k_factors (envExample 2) pmPair) pmPairUnit (ps_k0 pmPairUnit) i
      = ps_bin (create_k_factors (envExample 2) pmPair) pmPair (ps_k0 pmPair) i := fun _ => rfl
  have hk : ∀ i, ps_k (create_k_factors (envExample 2) pmPair) pmPairUnit i
      = ps_k (create_k_factors (envExample 2) pmPair) pmPair i := fun _ => rfl
  have hkk : ∀ i, kk_total (create_k_factors (envExample 2) pmPair) pmPairUnit i
      = kk_total (create_k_factors (envExample 2) pmPair) pmPair i := fun _ => rfl
  refine ⟨hv0, hv2, ?_, ?_⟩
  · simp [calculate_powerspectrum_program, hmodes, hfac, hm0, calculate_powerspectrum_updates,
      hbin, hk, hb0, hw0, hv0, ps_k, hkk, hk0]
  · simp [calculate_powerspectrum_program, hmodes, hfac, hm1, calculate_powerspectrum_updates,
      hbin, hk, hb1, hw1, hv2, ps_k, hkk, hk1]

/-- The parallel region of a team of two threads when it is entered. -/
theorem calculate_powerspectrum_enter_two (pm : PM ℝ) (env : Env ℝ) (size : Nat)
    (hn : env.num_threads = 2) :
    calculate_powerspectrum_enter pm env size
      = ⟨⟨fun _ => 0, fun _ => 0, fun _ => 0⟩,
          fun t => if t = 0 then ⟨calculate_powerspectrum_program pm env size 0, none⟩
            else if t = 1 then ⟨calculate_powerspectrum_program pm env size 1, none⟩
            else ⟨[], none⟩⟩ := by
  unfold calculate_powerspectrum_enter
  congr 1
  funext t
  rw [hn]
  by_cases h0 : t = 0
  · subst h0
    rw [if_pos (by decide), if_pos rfl]
  · by_cases h1 : t = 1
    · subst h1
      rw [if_pos (by decide), if_neg h0, if_pos rfl]
    · rw [if_neg (by omega), if_neg h0, if_neg h1]

/-- On a communicator of one rank the reduction returns the arrays of that
rank, which the normalisation divides by `N` inside `[0, size)`. -/
theorem calculate_powerspectrum_scheduled_single (pm : PM ℝ) (env : Env ℝ) (sched : List Nat)
    (size : Nat) (density_factor : ℝ) (b : Int) (hb : 0 ≤ b ∧ b < (size : Int)) :
    (calculate_powerspectrum_scheduled [(pm, env, sched)] pm size density_factor).N b
      = (calculate_powerspectrum_threads pm env size sched).ps.N b ∧
    (calculate_powerspectrum_scheduled [(pm, env, sched)] pm size density_factor).p b
      = (calculate_powerspectrum_threads pm env size sched).ps.p b
        / (calculate_powerspectrum_threads pm env size sched).ps.N b
        * (pm.Volume / (pm.Norm * pm.Norm) * (density_factor * density_factor)) ∧
    (calculate_powerspectrum_scheduled [(pm, env, sched)] pm size density_factor).k b
      = (calculate_powerspectrum_threads pm env size sched).ps.k b
        / (calculate_powerspectrum_threads pm env size sched).ps.N b := by
  simp [calculate_powerspectrum_scheduled, calculate_powerspectrum_finish, MPI_Allreduce_SUM, hb]

/-- C7 (the code departs from the claim in `calculate_powerspectrum`, by the
unsynchronised `+=` on the shared arrays that C12 reports): on the rank
`pmPair` with two threads, each thread has one mode, of weight `1` and of
bin `1` within `[0, 2)`, so the weighted number of binned modes is `2`. In
the run in which thread `0` and thread `1` both load `ps->N[1]`, still
zero, before either stores `0 + 1`, and each then finishes its block, every
thread has finished with `N[0] = 0` and `N[1] = 1`: the sum of `N` over the
bins after the reduction is `1`, and one mode is lost. -/
theorem calculate_powerspectrum_lost_count :
    calculate_powerspectrum_program pmPair (envExample 2) 2 0
      = [⟨PSArray.N, 1, 1⟩, ⟨PSArray.p, 1, 2⟩, ⟨PSArray.k, 1, 1⟩] ∧
    calculate_powerspectrum_program pmPair (envExample 2) 2 1
      = [⟨PSArray.N, 1, 1⟩, ⟨PSArray.p, 1, 2⟩, ⟨PSArray.k, 1, Real.sqrt 2⟩] ∧
    ((omp_parallel_modes pmPair (envExample 2)).map fun m =>
        if 0 ≤ ps_bin (create_k_factors (envExample 2) pmPair) pmPair (ps_k0 pmPair) m.2
            ∧ ps_bin (create_k_factors (envExample 2) pmPair) pmPair (ps_k0 pmPair) m.2
              < ((2 : Nat) : Int)
          then (ps_w m.2 : ℝ) else 0).sum = 2 ∧
    ps_finished (calculate_powerspectrum_threads pmPair (envExample 2) 2
      [0, 1, 0, 1, 0, 0, 0, 0, 1, 1, 1, 1]) ∧
    (calculate_powerspectrum_threads pmPair (envExample 2) 2
      [0, 1, 0, 1, 0, 0, 0, 0, 1, 1, 1, 1]).ps.N 0 = 0 ∧
    (calculate_powerspectrum_threads pmPair (envExample 2) 2
      [0, 1, 0, 1, 0, 0, 0, 0, 1, 1, 1, 1]).ps.N 1 = 1 ∧
    ∑ b in Finset.range 2, (calculate_powerspectrum_scheduled
      [(pmPair, envExample 2, [0, 1, 0, 1, 0, 0, 0, 0, 1, 1, 1, 1])] pmPair 2 1).N (b : Int)
        = 1 := by
  obtain ⟨hp0, hp1⟩ := pmPair_program
  obtain ⟨hm0, hm1⟩ := pmPair_modes
  obtain ⟨hb0, hb1⟩ := pmPair_bins
  have hw0 : ps_w (pmPair.pm_unravel_o_index 0) = 1 := by simp [ps_w, pmPair]
  have hw1 : ps_w (pmPair.pm_unravel_o_index 1) = 1 := by simp [ps_w, pmPair]
  have hr : List.range (envExample (K := ℝ) 2).num_threads = [0, 1] := by decide
  refine ⟨hp0, hp1, ?_, ?_, ?_, ?_, ?_⟩
  · unfold omp_parallel_modes
    rw [hr]
    simp only [List.flatMap_cons, List.flatMap_nil, List.append_nil, hm0, hm1]
    simp [hb0, hb1, hw0, hw1]
    norm_num
  · unfold ps_finished calculate_powerspectrum_threads
    rw [calculate_powerspectrum_enter_two _ _ _ rfl, hp0, hp1]
    intro t
    by_cases h0 : t = 0
    · simp [List.foldl, ps_step, Function.update, ps_read, ps_write, h0]
    · by_cases h1 : t = 1
      · simp [List.foldl, ps_step, Function.update, ps_read, ps_write, h1]
      · simp [List.foldl, ps_step, Function.update, ps_read, ps_write, h0, h1]
  · unfold calculate_powerspectrum_threads
    rw [calculate_powerspectrum_enter_two _ _ _ rfl, hp0, hp1]
    simp [List.foldl, ps_step, Function.update, ps_read, ps_write]
  · unfold calculate_powerspectrum_threads
    rw [calculate_powerspectrum_enter_two _ _ _ rfl, hp0, hp1]
    simp [List.foldl, ps_step, Function.update, ps_read, ps_write]
  · rw [Finset.sum_range_succ, Finset.sum_range_one,
      (calculate_powerspectrum_scheduled_single pmPair (envExample 2) _ 2 1 _ (by decide)).1,
      (calculate_powerspectrum_scheduled_single pmPair (envExample 2) _ 2 1 _ (by decide)).1]
    unfold calculate_powerspectrum_threads
    rw [calculate_powerspectrum_enter_two _ _ _ rfl, hp0, hp1]
    simp [List.foldl, ps_step, Function.update, ps_read, ps_write]

/-- C8 (the code departs from the claim in `calculate_powerspectrum`, by the
unsynchronised `+=` on the shared arrays that C12 reports): on the rank
`pmPairUnit` with two threads, both modes have `real² + imag² = 1` and bin
`1`. In the run in which thread `0` and thread `1` both load `ps->N[1]`,
still zero, before either stores `0 + 1`, and each then finishes its block,
every thread has finished with `N[1] = 1 > 0` and the sum `2` in `p[1]`, so
with `density_factor = 1` the function returns
`p[1] = 2 * (Volume / Norm² * density_factor²)`, twice the value of the
claim. -/
theorem calculate_powerspectrum_lost_normalization :
    ps_value pmPairUnit 0 = 1 ∧ ps_value pmPairUnit 2 = 1 ∧
    calculate_powerspectrum_program pmPairUnit (envExample 2) 2 0
      = [⟨PSArray.N, 1, 1⟩, ⟨PSArray.p, 1, 1⟩, ⟨PSArray.k, 1, 1⟩] ∧
    calculate_powerspectrum_program pmPairUnit (envExample 2) 2 1
      = [⟨PSArray.N, 1, 1⟩, ⟨PSArray.p, 1, 1⟩, ⟨PSArray.k, 1, Real.sqrt 2⟩] ∧
    ps_finished (calculate_powerspectrum_threads pmPairUnit (envExample 2) 2
      [0, 1, 0, 1, 0, 0, 0, 0, 1, 1, 1, 1]) ∧
    (calculate_powerspectrum_scheduled
      [(pmPairUnit, envExample 2, [0, 1, 0, 1, 0, 0, 0, 0, 1, 1, 1, 1])] pmPairUnit 2 1).N 1
        = 1 ∧
    (calculate_powerspectrum_scheduled
      [(pmPairUnit, envExample 2, [0, 1, 0, 1, 0, 0, 0, 0, 1, 1, 1, 1])] pmPairUnit 2 1).p 1
        = 2 * (pmPairUnit.Volume / pmPairUnit.Norm ^ 2 * (1 : ℝ) ^ 2) ∧
    (calculate_powerspectrum_scheduled
      [(pmPairUnit, envExample 2, [0, 1, 0, 1, 0, 0, 0, 0, 1, 1, 1, 1])] pmPairUnit 2 1).p 1
        ≠ pmPairUnit.Volume / pmPairUnit.Norm ^ 2 * (1 : ℝ) ^ 2 := by
  obtain ⟨hv0, hv2, hp0, hp1⟩ := pmPairUnit_program
  have hN : (calculate_powerspectrum_scheduled
      [(pmPairUnit, envExample 2, [0, 1, 0, 1, 0, 0, 0, 0, 1, 1, 1, 1])] pmPairUnit 2 1).N 1
        = 1 := by
    rw [(calculate_powerspectrum_scheduled_single pmPairUnit (envExample 2) _ 2 1 1
      (by decide)).1]
    unfold calculate_powerspectrum_threads
    rw [calculate_powerspectrum_enter_two _ _ _ rfl, hp0, hp1]
    simp [List.foldl, ps_step, Function.update, ps_read, ps_write]
  have hp : (calculate_powerspectrum_scheduled
      [(pmPairUnit, envExample 2, [0, 1, 0, 1, 0, 0, 0, 0, 1, 1, 1, 1])] pmPairUnit 2 1).p 1
        = 2 * (pmPairUnit.Volume / pmPairUnit.Norm ^ 2 * (1 : ℝ) ^ 2) := by
    rw [(calculate_powerspectrum_scheduled_single pmPairUnit (envExample 2) _ 2 1 1
      (by decide)).2.1]
    unfold calculate_powerspectrum_threads
    rw [calculate_powerspectrum_enter_two _ _ _ rfl, hp0, hp1]
    simp [List.foldl, ps_step, Function.update, ps_read, ps_write]
    ring
  have hpos : 0 < pmPairUnit.Volume / pmPairUnit.Norm ^ 2 * (1 : ℝ) ^ 2 := by
    simp only [pmPairUnit, pmPair]
    positivity
  refine ⟨hv0, hv2, hp0, hp1, ?_, hN, hp, ?_⟩
  · unfold ps_finished calculate_powerspectrum_threads
    rw [calculate_powerspectrum_enter_two _ _ _ rfl, hp0, hp1]
    intro t
    by_cases h0 : t = 0
    · simp [List.foldl, ps_step, Function.update, ps_read, ps_write, h0]
    · by_cases h1 : t = 1
      · simp [List.foldl, ps_step, Function.update, ps_read, ps_write, h1]
      · simp [List.foldl, ps_step, Function.update, ps_read, ps_write, h0, h1]
  · rw [hp]
    intro h
    linarith

/-- C15 (the code departs from the claim in `calculate_powerspectrum`, by the
unsynchronised `+=` on the shared arrays that C12 reports): on the rank
`pmPair` with two threads, `BoxSize[0] = 2π > 0`, `k0 = 1`, and the two
modes, of wavenumber `1` and `sqrt 2`, both have bin `1`, whose interval is
`[1, 2)`. In the run in which both threads update `N[1]` and `p[1]` in turn,
both load `ps->k[1]`, still zero, thread `1` stores `0 + sqrt 2` and thread
`0` then stores `0 + 1`, every thread has finished with `N[1] = 2 > 0` and
the sum `1` in `k[1]`: the function returns `k[1] = 1/2`, below `1 * k0`
and so outside the interval of bin `1`. -/
theorem calculate_powerspectrum_lost_mean :
    0 < pmPair.BoxSize 0 ∧
    ps_k0 pmPair = 1 ∧
    calculate_powerspectrum_program pmPair (envExample 2) 2 0
      = [⟨PSArray.N, 1, 1⟩, ⟨PSArray.p, 1, 2⟩, ⟨PSArray.k, 1, 1⟩] ∧
    calculate_powerspectrum_program pmPair (envExample 2) 2 1
      = [⟨PSArray.N, 1, 1⟩, ⟨PSArray.p, 1, 2⟩, ⟨PSArray.k, 1, Real.sqrt 2⟩] ∧
    ps_finished (calculate_powerspectrum_threads pmPair (envExample 2) 2
      [0, 0, 0, 0, 0, 1, 1, 1, 1, 1, 1, 0]) ∧
    (calculate_powerspectrum_scheduled
      [(pmPair, envExample 2, [0, 0, 0, 0, 0, 1, 1, 1, 1, 1, 1, 0])] pmPair 2 1).N 1 = 2 ∧
    (calculate_powerspectrum_scheduled
      [(pmPair, envExample 2, [0, 0, 0, 0, 0, 1, 1, 1, 1, 1, 1, 0])] pmPair 2 1).k 1
        = 1 / 2 ∧
    (calculate_powerspectrum_scheduled
      [(pmPair, envExample 2, [0, 0, 0, 0, 0, 1, 1, 1, 1, 1, 1, 0])] pmPair 2 1).k 1
        < ((1 : Nat) : ℝ) * (2 * Real.pi / pmPair.BoxSize 0) := by
  obtain ⟨hp0, hp1⟩ := pmPair_program
  have hbox : 0 < pmPair.BoxSize 0 := by
    simp only [pmPair]
    positivity
  have hk0 : ps_k0 pmPair = 1 := by
    unfold ps_k0
    simp only [pmPair]
    exact div_self (by positivity)
  have hN : (calculate_powerspectrum_scheduled
      [(pmPair, envExample 2, [0, 0, 0, 0, 0, 1, 1, 1, 1, 1, 1, 0])] pmPair 2 1).N 1 = 2 := by
    rw [(calculate_powerspectrum_scheduled_single pmPair (envExample 2) _ 2 1 1
      (by decide)).1]
    unfold calculate_powerspectrum_threads
    rw [calculate_powerspectrum_enter_two _ _ _ rfl, hp0, hp1]
    simp [List.foldl, ps_step, Function.update, ps_read, ps_write]
    norm_num
  have hk : (calculate_powerspectrum_scheduled
      [(pmPair, envExample 2, [0, 0, 0, 0, 0, 1, 1, 1, 1, 1, 1, 0])] pmPair 2 1).k 1
        = 1 / 2 := by
    rw [(calculate_powerspectrum_scheduled_single pmPair (envExample 2) _ 2 1 1
      (by decide)).2.2]
    unfold calculate_powerspectrum_threads
    rw [calculate_powerspectrum_enter_two _ _ _ rfl, hp0, hp1]
    simp [List.foldl, ps_step, Function.update, ps_read, ps_write]
    norm_num
  refine ⟨hbox, hk0, hp0, hp1, ?_, hN, hk, ?_⟩
  · unfold ps_finished calculate_powerspectrum_threads
    rw [calculate_powerspectrum_enter_two _ _ _ rfl, hp0, hp1]
    intro t
    by_cases h0 : t = 0
    · simp [List.foldl, ps_step, Function.update, ps_read, ps_write, h0]
    · by_cases h1 : t = 1
      · simp [List.foldl, ps_step, Function.update, ps_read, ps_write, h1]
      · simp [List.foldl, ps_step, Function.update, ps_read, ps_write, h0, h1]
  · have e : 2 * Real.pi / pmPair.BoxSize 0 = 1 := hk0
    rw [hk, e]
    norm_num

/-- What `prepare_omp_loop` returns in a thread, by the test
`*end > *start`: with a non-empty range, one call of `pm_unravel_o_index`
at `*start / 2` whose result is `i`; with an empty range, no call, `i` as it
was, and a result that does not depend on `pm_unravel_o_index`. -/
theorem prepare_omp_loop_unravel {K : Type} (pm : PM K) (env : Env K) (ith : Nat) :
    ((prepare_omp_loop pm env ith).2.2.2 ≠ [] ↔
      (prepare_omp_loop pm env ith).2.1 > (prepare_omp_loop pm env ith).1) ∧
    ((prepare_omp_loop pm env ith).2.1 > (prepare_omp_loop pm env ith).1 →
      (prepare_omp_loop pm env ith).2.2.2 = [Int.tdiv (prepare_omp_loop pm env ith).1 2] ∧
      (prepare_omp_loop pm env ith).2.2.1
        = pm.pm_unravel_o_index (Int.tdiv (prepare_omp_loop pm env ith).1 2)) ∧
    (¬ (prepare_omp_loop pm env ith).2.1 > (prepare_omp_loop pm env ith).1 →
      (prepare_omp_loop pm env ith).2.2.2 = [] ∧
      (prepare_omp_loop pm env ith).2.2.1 = env.i_stack ith ∧
      ∀ u : Int → Fin 3 → Int,
        prepare_omp_loop { pm with pm_unravel_o_index := u } env ith
          = prepare_omp_loop pm env ith) := by
  by_cases h : omp_end pm.ORegion_total env.num_threads ith
      > omp_start pm.ORegion_total env.num_threads ith
  · have e : prepare_omp_loop pm env ith
        = (omp_start pm.ORegion_total env.num_threads ith,
            omp_end pm.ORegion_total env.num_threads ith,
            pm.pm_unravel_o_index (Int.tdiv (omp_start pm.ORegion_total env.num_threads ith) 2),
            [Int.tdiv (omp_start pm.ORegion_total env.num_threads ith) 2]) := by
      simp only [prepare_omp_loop, if_pos h]
    rw [e]
    refine ⟨⟨fun _ => h, fun _ => List.cons_ne_nil _ _⟩, fun _ => ⟨rfl, rfl⟩, ?_⟩
    intro hn
    exact absurd h hn
  · have e : ∀ u : Int → Fin 3 → Int, prepare_omp_loop { pm with pm_unravel_o_index := u } env ith
        = (omp_start pm.ORegion_total env.num_threads ith,
            omp_end pm.ORegion_total env.num_threads ith, env.i_stack ith, []) := by
      intro u
      simp only [prepare_omp_loop, if_neg h]
    have e0 : prepare_omp_loop pm env ith
        = (omp_start pm.ORegion_total env.num_threads ith,
            omp_end pm.ORegion_total env.num_threads ith, env.i_stack ith, []) :=
      e pm.pm_unravel_o_index
    rw [e0]
    refine ⟨⟨fun hne => absurd rfl hne, fun hp => absurd hp h⟩, fun hp => absurd hp h, ?_⟩
    intro _
    exact ⟨rfl, rfl, fun u => e u⟩

/-- C13: `prepare_omp_loop` calls `pm_unravel_o_index` in a thread exactly
when that thread's range is non-empty (`end > start`): then once, at
`start / 2`, and otherwise not at all, leaving `i` as it was. When
`ORegion.total == 0`, every thread has `start = end = 0`, makes no such
call, every loop makes zero passes, and `apply_force_kernel`,
`smooth_density` and the accumulation of `calculate_powerspectrum` (under
every schedule of its threads) leave the workspace, respectively the zeroed
arrays, untouched. -/
theorem prepare_omp_loop_empty_region (pm : PM ℝ) (env : Env ℝ) :
    (∀ ith : Nat,
      ((prepare_omp_loop pm env ith).2.2.2 ≠ [] ↔
        (prepare_omp_loop pm env ith).2.1 > (prepare_omp_loop pm env ith).1) ∧
      ((prepare_omp_loop pm env ith).2.1 > (prepare_omp_loop pm env ith).1 →
        (prepare_omp_loop pm env ith).2.2.2 = [Int.tdiv (prepare_omp_loop pm env ith).1 2] ∧
        (prepare_omp_loop pm env ith).2.2.1
          = pm.pm_unravel_o_index (Int.tdiv (prepare_omp_loop pm env ith).1 2)) ∧
      (¬ (prepare_omp_loop pm env ith).2.1 > (prepare_omp_loop pm env ith).1 →
        (prepare_omp_loop pm env ith).2.2.2 = [] ∧
        (prepare_omp_loop pm env ith).2.2.1 = env.i_stack ith ∧
        ∀ u : Int → Fin 3 → Int,
          prepare_omp_loop { pm with pm_unravel_o_index := u } env ith
            = prepare_omp_loop pm env ith)) ∧
    (pm.ORegion_total = 0 →
      (∀ ith : Nat,
        (prepare_omp_loop pm env ith).1 = 0 ∧
        (prepare_omp_loop pm env ith).2.1 = 0 ∧
        (prepare_omp_loop pm env ith).2.2.2 = [] ∧
        (prepare_omp_loop pm env ith).2.2.1 = env.i_stack ith ∧
        omp_thread_modes pm env ith = []) ∧
      omp_parallel_modes pm env = [] ∧
      (∀ dir : Fin 3,
        (apply_force_kernel pm env dir).workspace = pm.workspace ∧
        (apply_force_kernel pm env dir).divisors = []) ∧
      (∀ r_s : ℝ, smooth_density pm env r_s = pm.workspace) ∧
      (∀ size : Nat,
        (calculate_powerspectrum_local pm env size).N = (fun _ => 0) ∧
        (calculate_powerspectrum_local pm env size).p = (fun _ => 0) ∧
        (calculate_powerspectrum_local pm env size).k = (fun _ => 0)) ∧
      (∀ (size : Nat) (sched : List Nat),
        (calculate_powerspectrum_threads pm env size sched).ps
          = ⟨fun _ => 0, fun _ => 0, fun _ => 0⟩)) := by
  refine ⟨fun ith => prepare_omp_loop_unravel pm env ith, ?_⟩
  intro htotal
  refine ⟨?_, ?_, ?_, ?_, ?_, ?_⟩
  · intro ith
    have hs : (prepare_omp_loop pm env ith).1 = 0 := by
      show omp_start pm.ORegion_total env.num_threads ith = 0
      rw [htotal]; exact omp_start_empty _ _
    have he : (prepare_omp_loop pm env ith).2.1 = 0 := by
      show omp_end pm.ORegion_total env.num_threads ith = 0
      rw [htotal]; exact omp_end_empty _ _
    have hno : ¬ (prepare_omp_loop pm env ith).2.1 > (prepare_omp_loop pm env ith).1 := by
      rw [hs, he]; exact lt_irrefl 0
    have h3 := (prepare_omp_loop_unravel pm env ith).2.2 hno
    exact ⟨hs, he, h3.1, h3.2.1, omp_thread_modes_empty pm env htotal ith⟩
  · unfold omp_parallel_modes
    generalize List.range env.num_threads = l
    induction l with
    | nil => rfl
    | cons t l ih => rw [List.flatMap_cons, omp_thread_modes_empty pm env htotal, ih]; rfl
  · intro dir
    unfold apply_force_kernel apply_force_kernel_on
    rw [omp_parallel_empty pm env _ htotal]
    exact ⟨rfl, rfl⟩
  · intro r_s
    unfold smooth_density smooth_density_on
    rw [omp_parallel_empty pm env _ htotal]
  · intro size
    unfold calculate_powerspectrum_local
    rw [omp_parallel_empty pm env _ htotal]
    exact ⟨rfl, rfl, rfl⟩
  · intro size sched
    exact calculate_powerspectrum_threads_empty pm env size htotal sched

/-- Three threads, for C13. On one mode (`total = 1`), threads `0` and `1`
have the empty range `[0, 0)` and make no call, thread `2` has `[0, 2)` and
calls `pm_unravel_o_index` once, at offset `0`. On an empty region no thread
calls it, the workspace keeps its content `9` and the accumulators stay
zero. -/
theorem prepare_omp_loop_empty_region_witness :
    (prepare_omp_loop (pmExample (0 : ℝ)) (envExample 3) 0).2.2.2 = [] ∧
    (prepare_omp_loop (pmExample (0 : ℝ)) (envExample 3) 1).2.2.2 = [] ∧
    (prepare_omp_loop (pmExample (0 : ℝ)) (envExample 3) 2).2.2.2 = [0] ∧
    (∀ ith : Nat, (prepare_omp_loop (pmEmpty (K := ℝ)) (envExample 3) ith).2.2.2 = []) ∧
    omp_parallel_modes (pmEmpty (K := ℝ)) (envExample 3) = [] ∧
    (∀ dir : Fin 3, ∀ x : Int, (apply_force_kernel pmEmpty (envExample 3) dir).workspace x = 9) ∧
    (∀ x : Int, smooth_density pmEmpty (envExample 3) 2 x = 9) ∧
    (∀ b : Int, (calculate_powerspectrum_local pmEmpty (envExample 3) 4).N b = 0) ∧
    (∀ b : Int,
      (calculate_powerspectrum_threads pmEmpty (envExample 3) 4 [2, 0, 1, 1, 0]).ps.N b = 0) := by
  have hone := (prepare_omp_loop_empty_region (pmExample (0 : ℝ)) (envExample 3)).1
  obtain ⟨h2, h3, h4, h5, h6, h7⟩ :=
    (prepare_omp_loop_empty_region (pmEmpty (K := ℝ)) (envExample 3)).2 rfl
  refine ⟨((hone 0).2.2 (by decide)).1, ((hone 1).2.2 (by decide)).1,
    ((hone 2).2.1 (by decide)).1, fun ith => (h2 ith).2.2.1, h3, ?_, ?_, ?_, ?_⟩
  · intro dir x
    rw [(h4 dir).1]
    rfl
  · intro x
    rw [h5 2]
    rfl
  · intro b
    rw [(h6 4).1]
  · intro b
    rw [h7 4 [2, 0, 1, 1, 0]]

/-! ### The zero wavenumber -/

/-- C14: in a table built by `create_k_factors` from a geometry with
positive cell sizes, an entry whose wavenumber is `0` has `k_finite = 0`,
`kk_finite = 0`, `kk = 0` and `cic = 1`, with `sinc_unnormed 0 = 1` from the
polynomial branch; at a mode whose wavenumber is `0` on all three axes,
`apply_force_kernel` writes `(0, 0)` for every axis and every amplitude. -/
theorem create_k_factors_zero_wavenumber (pm : PM ℝ) (env : Env ℝ)
    (_hcell : ∀ d : Fin 3, 0 < pm.BoxSize d / (pm.Nmesh d : ℝ)) :
    sinc_unnormed 0 = 1 ∧
    sinc_unnormed 0 = 1 - (0 : ℝ) ^ 2 / 6 + (0 : ℝ) ^ 4 / 120 ∧
    (∀ (d : Fin 3) (ind : Int), pm.MeshtoK d ind = 0 →
      (create_k_factors env pm d ind).k_finite = 0 ∧
      (create_k_factors env pm d ind).kk_finite = 0 ∧
      (create_k_factors env pm d ind).kk = 0 ∧
      (create_k_factors env pm d ind).cic = 1) ∧
    (∀ (dir : Fin 3) (ith j : Nat), 0 ≤ pm.ORegion_total → ith < env.num_threads →
      omp_start pm.ORegion_total env.num_threads ith + 2 * (j : Int)
        < omp_end pm.ORegion_total env.num_threads ith →
      (∀ d : Fin 3, pm.MeshtoK d (omp_index pm env ith j d + pm.ORegion_start d) = 0) →
      (apply_force_kernel pm env dir).workspace
          (omp_start pm.ORegion_total env.num_threads ith + 2 * (j : Int)) = 0 ∧
      (apply_force_kernel pm env dir).workspace
          (omp_start pm.ORegion_total env.num_threads ith + 2 * (j : Int) + 1) = 0) := by
  have hsinc : sinc_unnormed 0 = 1 := by
    rw [sinc_unnormed_small 0 (by norm_num)]
    norm_num
  have hentry : ∀ (d : Fin 3) (ind : Int), pm.MeshtoK d ind = 0 →
      (create_k_factors env pm d ind).k_finite = 0 ∧
      (create_k_factors env pm d ind).kk_finite = 0 ∧
      (create_k_factors env pm d ind).kk = 0 ∧
      (create_k_factors env pm d ind).cic = 1 := by
    intro d ind hk
    simp [create_k_factors, hk, diff_kernel]
  refine ⟨hsinc, by rw [hsinc]; norm_num, hentry, ?_⟩
  intro dir ith j htotal hth hj hdc
  have hkk : kk_finite_total (create_k_factors env pm) pm (omp_index pm env ith j) = 0 := by
    unfold kk_finite_total
    rw [(hentry 0 _ (hdc 0)).2.1, (hentry 1 _ (hdc 1)).2.1, (hentry 2 _ (hdc 2)).2.1]
    norm_num
  have hnot : ¬ kk_finite_total (create_k_factors env pm) pm (omp_index pm env ith j) > 0 := by
    rw [hkk]; exact lt_irrefl 0
  have hslot := apply_force_kernel_on_slot (create_k_factors env pm) pm env dir ith j
    htotal hth hj
  rw [if_neg hnot, if_neg hnot] at hslot
  exact hslot

/-- The one-mode mesh with wavenumber `0` and amplitude `3 + 4i`, for C14:
the entry is `(0, 0, 0, 1)` and the force is `(0, 0)` on every axis. -/
theorem create_k_factors_zero_wavenumber_witness :
    (∀ (d : Fin 3) (ind : Int),
      (create_k_factors (envExample 1) (pmExample 0) d ind).k_finite = 0 ∧
      (create_k_factors (envExample 1) (pmExample 0) d ind).kk_finite = 0 ∧
      (create_k_factors (envExample 1) (pmExample 0) d ind).kk = 0 ∧
      (create_k_factors (envExample 1) (pmExample 0) d ind).cic = 1) ∧
    (∀ dir : Fin 3,
      (apply_force_kernel (pmExample 0) (envExample 1) dir).workspace 0 = 0 ∧
      (apply_force_kernel (pmExample 0) (envExample 1) dir).workspace 1 = 0) := by
  have hs : omp_start (pmExample (0 : ℝ)).ORegion_total (envExample (K := ℝ) 1).num_threads 0 = 0 := by
    decide
  have he : omp_end (pmExample (0 : ℝ)).ORegion_total (envExample (K := ℝ) 1).num_threads 0 = 2 := by
    decide
  obtain ⟨-, -, h3, h4⟩ := create_k_factors_zero_wavenumber (pmExample 0) (envExample 1)
    (by intro d; norm_num [pmExample])
  refine ⟨fun d ind => h3 d ind rfl, ?_⟩
  intro dir
  have h := h4 dir 0 0 (by decide) (by decide) (by rw [hs, he]; decide) (fun d => rfl)
  rw [hs] at h
  exact ⟨by simpa using h.1, by simpa using h.2⟩

/-! ### The mean wavenumber of a bin -/

/-- The reduced wavenumber sum `k[b]` of a bin within `[0, size)`. -/
theorem calculate_powerspectrum_reduced_k (comm : List (PM ℝ × Env ℝ)) (size : Nat) (b : Nat)
    (hb : b < size) :
    (calculate_powerspectrum_reduced comm size).k b = ps_bin_sum_k comm b := by
  unfold calculate_powerspectrum_reduced MPI_Allreduce_SUM ps_bin_sum_k
  simp only [List.map_map]
  congr 1
  apply List.map_congr_left
  intro r _
  simp only [Function.comp, calculate_powerspectrum_local_k]
  congr 1
  apply List.map_congr_left
  intro m _
  by_cases h : ps_bin (create_k_factors r.2 r.1) r.1 (ps_k0 r.1) m.2 = (b : Int)
  · rw [if_pos h, if_pos ⟨h, by rw [h]; omega, by rw [h]; omega⟩]
  · rw [if_neg h, if_neg (fun h2 => h h2.1)]

/-- A weighted sum of values that are at least `c` is at least `c` times
the sum of the weights. -/
theorem weighted_sum_ge (l : List (ℝ × ℝ)) (c : ℝ)
    (h : ∀ q ∈ l, 0 ≤ q.1 ∧ (0 < q.1 → c ≤ q.2)) :
    c * (l.map Prod.fst).sum ≤ (l.map fun q => q.1 * q.2).sum := by
  induction l with
  | nil => simp
  | cons q l ih =>
    have hq := h q (List.mem_cons_self _ _)
    have hl := ih fun x hx => h x (List.mem_cons_of_mem _ hx)
    simp only [List.map_cons, List.sum_cons]
    rcases lt_or_eq_of_le hq.1 with hpos | hz
    · have := hq.2 hpos
      nlinarith
    · rw [← hz]
      linarith

/-- A weighted sum of values that are below `c`, of positive total weight,
is below `c` times the sum of the weights. -/
theorem weighted_sum_lt (l : List (ℝ × ℝ)) (c : ℝ)
    (h : ∀ q ∈ l, 0 ≤ q.1 ∧ (0 < q.1 → q.2 < c)) (hpos : 0 < (l.map Prod.fst).sum) :
    (l.map fun q => q.1 * q.2).sum < c * (l.map Prod.fst).sum := by
  have hle : ∀ l' : List (ℝ × ℝ), (∀ q ∈ l', 0 ≤ q.1 ∧ (0 < q.1 → q.2 < c)) →
      (l'.map fun q => q.1 * q.2).sum ≤ c * (l'.map Prod.fst).sum := by
    intro l'
    induction l' with
    | nil => intro _; simp
    | cons q l' ih =>
      intro h'
      have hq := h' q (List.mem_cons_self _ _)
      have hl := ih fun x hx => h' x (List.mem_cons_of_mem _ hx)
      simp only [List.map_cons, List.sum_cons]
      rcases lt_or_eq_of_le hq.1 with hp | hz
      · have := hq.2 hp
        nlinarith
      · rw [← hz]
        linarith
  induction l with
  | nil => simp at hpos
  | cons q l ih =>
    have hq := h q (List.mem_cons_self _ _)
    have hrest : ∀ x ∈ l, 0 ≤ x.1 ∧ (0 < x.1 → x.2 < c) :=
      fun x hx => h x (List.mem_cons_of_mem _ hx)
    simp only [List.map_cons, List.sum_cons] at hpos ⊢
    rcases lt_or_eq_of_le hq.1 with hp | hz
    · have h1 := hq.2 hp
      have h2 := hle l hrest
      nlinarith
    · rw [← hz] at hpos ⊢
      have := ih hrest (by linarith)
      linarith

theorem ps_bin_pairs_fst (comm : List (PM ℝ × Env ℝ)) (b : Int) :
    ((ps_bin_pairs comm b).map Prod.fst).sum = ps_bin_sum comm b fun _ m => (ps_w m.2 : ℝ) := by
  unfold ps_bin_pairs ps_bin_sum
  induction comm with
  | nil => simp
  | cons r comm ih =>
    rw [List.flatMap_cons, List.map_append, List.sum_append, ih, List.map_cons, List.sum_cons,
      List.map_map]
    rfl

theorem ps_bin_pairs_mul (comm : List (PM ℝ × Env ℝ)) (b : Int) :
    ((ps_bin_pairs comm b).map fun q => q.1 * q.2).sum = ps_bin_sum_k comm b := by
  unfold ps_bin_pairs ps_bin_sum_k
  induction comm with
  | nil => simp
  | cons r comm ih =>
    rw [List.flatMap_cons, List.map_append, List.sum_append, ih, List.map_cons, List.sum_cons,
      List.map_map]
    congr 2
    apply List.map_congr_left
    intro m _
    simp only [Function.comp]
    split_ifs <;> simp

theorem ps_w_pos (i : Fin 3 → Int) : (0 : ℝ) < (ps_w i : ℝ) := by
  unfold ps_w
  split_ifs <;> norm_num

/-- A mode that counts for bin `b` has its wavenumber in
`[b * k0, (b + 1) * k0)`. -/
theorem ps_bin_pairs_mem (comm : List (PM ℝ × Env ℝ)) (b : Nat) (k0 : ℝ) (hk0 : 0 < k0)
    (hsame : ∀ r ∈ comm, ps_k0 r.1 = k0) :
    ∀ q ∈ ps_bin_pairs comm b,
      0 ≤ q.1 ∧ (0 < q.1 → (b : ℝ) * k0 ≤ q.2 ∧ q.2 < ((b : ℝ) + 1) * k0) := by
  intro q hq
  unfold ps_bin_pairs at hq
  rw [List.mem_flatMap] at hq
  obtain ⟨r, hr, hq⟩ := hq
  rw [List.mem_map] at hq
  obtain ⟨m, -, rfl⟩ := hq
  by_cases hbin : ps_bin (create_k_factors r.2 r.1) r.1 (ps_k0 r.1) m.2 = (b : Int)
  · simp only [if_pos hbin]
    refine ⟨le_of_lt (ps_w_pos _), fun _ => ?_⟩
    unfold ps_bin at hbin
    rw [hsame r hr, Int.floor_eq_iff] at hbin
    obtain ⟨h1, h2⟩ := hbin
    rw [Int.cast_natCast] at h1 h2
    rw [le_div_iff₀ hk0] at h1
    rw [div_lt_iff₀ hk0] at h2
    exact ⟨h1, h2⟩
  · simp only [if_neg hbin]
    exact ⟨le_refl 0, fun h => absurd h (lt_irrefl 0)⟩

/-- When on every rank the blocks of the threads run one after another (one
thread, or the serial schedule): on a mesh with `BoxSize[0] > 0`, the same
on every rank, for every bin `b` within `[0, size)` with `N[b] > 0`, the
returned `k[b]` is the weighted mean `(sum of w * k) / (sum of w)` of the
wavenumbers of the modes binned into `b`, and lies in the bin's interval:
`b * k0 ≤ k[b] < (b + 1) * k0` with `k0 = 2π / BoxSize[0]`. -/
theorem calculate_powerspectrum_k_in_bin_serial (comm : List (PM ℝ × Env ℝ)) (pm : PM ℝ) (size : Nat)
    (density_factor : ℝ) (b : Nat) (hb : b < size) (hbox : 0 < pm.BoxSize 0)
    (hsame : ∀ r ∈ comm, r.1.BoxSize 0 = pm.BoxSize 0)
    (hN : 0 < (calculate_powerspectrum comm pm size density_factor).N b) :
    (calculate_powerspectrum comm pm size density_factor).N b
      = ps_bin_sum comm b (fun _ m => (ps_w m.2 : ℝ)) ∧
    (calculate_powerspectrum comm pm size density_factor).k b
      = ps_bin_sum_k comm b / ps_bin_sum comm b (fun _ m => (ps_w m.2 : ℝ)) ∧
    (b : ℝ) * (2 * Real.pi / pm.BoxSize 0)
      ≤ (calculate_powerspectrum comm pm size density_factor).k b ∧
    (calculate_powerspectrum comm pm size density_factor).k b
      < ((b : ℝ) + 1) * (2 * Real.pi / pm.BoxSize 0) := by
  have hk0 : 0 < 2 * Real.pi / pm.BoxSize 0 := div_pos (by positivity) hbox
  have hsame' : ∀ r ∈ comm, ps_k0 r.1 = 2 * Real.pi / pm.BoxSize 0 := by
    intro r hr
    unfold ps_k0
    rw [hsame r hr]
  have hNe := calculate_powerspectrum_reduced_N comm size b hb
  have hke := calculate_powerspectrum_reduced_k comm size b hb
  have hrange : (0 : Int) ≤ (b : Int) ∧ (b : Int) < (size : Int) := by omega
  have hNf : (calculate_powerspectrum comm pm size density_factor).N b
      = ps_bin_sum comm b (fun _ m => (ps_w m.2 : ℝ)) := hNe
  have hkf : (calculate_powerspectrum comm pm size density_factor).k b
      = ps_bin_sum_k comm b / ps_bin_sum comm b (fun _ m => (ps_w m.2 : ℝ)) := by
    simp only [calculate_powerspectrum]
    rw [if_pos hrange, hke, hNe]
  have hW : 0 < ps_bin_sum comm b (fun _ m => (ps_w m.2 : ℝ)) := by
    rw [← hNf]; exact hN
  have hmem := ps_bin_pairs_mem comm b _ hk0 hsame'
  have hge := weighted_sum_ge (ps_bin_pairs comm b) ((b : ℝ) * (2 * Real.pi / pm.BoxSize 0))
    (fun q hq => ⟨(hmem q hq).1, fun hp => ((hmem q hq).2 hp).1⟩)
  have hlt := weighted_sum_lt (ps_bin_pairs comm b)
    (((b : ℝ) + 1) * (2 * Real.pi / pm.BoxSize 0))
    (fun q hq => ⟨(hmem q hq).1, fun hp => ((hmem q hq).2 hp).2⟩)
    (by rw [ps_bin_pairs_fst]; exact hW)
  rw [ps_bin_pairs_fst, ps_bin_pairs_mul] at hge hlt
  refine ⟨hNf, hkf, ?_, ?_⟩
  · rw [hkf, le_div_iff₀ hW]
    exact hge
  · rw [hkf, div_lt_iff₀ hW]
    exact hlt

/-! ### The per-axis loop of `do_pm` -/

/-- C3 (the code departs from the claim): the pass for axis `2` requests
ghost reduction with the mask `PACK_ACC_Y`, the one of axis `1`, and not
with `PACK_ACC_Z`; axes `0` and `1` use `PACK_ACC_X` and `PACK_ACC_Y`. The
three passes reduce two distinct components, not three. -/
theorem do_pm_reduce_mask_axis2 :
    do_pm_reduce_mask 0 = some PackAttr.PACK_ACC_X ∧
    do_pm_reduce_mask 1 = some PackAttr.PACK_ACC_Y ∧
    do_pm_reduce_mask 2 = some PackAttr.PACK_ACC_Y ∧
    do_pm_reduce_mask 2 ≠ some (axis_acc_mask 2) ∧
    do_pm_reduce_mask 2 = do_pm_reduce_mask 1 ∧
    do_pm_force_loop =
      [PMCall.apply_force_kernel 0, PMCall.pm_c2r, PMCall.readout 0,
       PMCall.pm_reduce_ghosts PackAttr.PACK_ACC_X,
       PMCall.apply_force_kernel 1, PMCall.pm_c2r, PMCall.readout 1,
       PMCall.pm_reduce_ghosts PackAttr.PACK_ACC_Y,
       PMCall.apply_force_kernel 2, PMCall.pm_c2r, PMCall.readout 2,
       PMCall.pm_reduce_ghosts PackAttr.PACK_ACC_Y] := by
  decide

end FastPM
